import Mathlib

/-! Hub index ingestion and aggregate queries (`pkg/cwhub/hub.go`).

A shallow embedding of `NewHub`, `parseIndex`, `ItemStats` and `updateIndex`.

Conventions of the embedding:

* Go strings are Lean `String`s, read character by character (the only characters the code
  looks for are ASCII); byte slices are lists of naturals below 256.
* A Go `map[string]V` is an association list read with first-match lookup; a map the
  program can build has pairwise distinct keys.
* `map[string]*Item` values are `Option Item`: `none` is the nil pointer, and every
  non-nil pointer owns its item (the decoder allocates one item per entry).
* A call either returns a value, returns a Go `error`, or panics (`Res`).
* Calls to the logger do not change program state and are left out.
* What `hub.go` uses but does not define (the item type list, the item declaration,
  `IsLocal`, `logMissingSubItems`, `fetchIndex`, `localSync`, the JSON decoder applied to
  the item schema) is collected in `Env` and universally quantified in the theorems.
-/

namespace Cwhub

/-! ## Errors and results -/

/-- A Go `error`: a plain message, or `fmt.Errorf("<pre>%w", inner)`. -/
inductive GoError where
  | base (msg : String)
  | wrap (pre : String) (inner : GoError)
  deriving DecidableEq, Repr

/-- The `Error()` text of an error value. -/
def GoError.Error : GoError → String
  | .base msg => msg
  | .wrap pre inner => pre ++ inner.Error

/-- Outcome of a call: a value, an `error`, or a run-time panic. -/
inductive Res (α : Type) where
  | ok (a : α)
  | err (e : GoError)
  | panic
  deriving DecidableEq, Repr

abbrev Bytes := List Nat

/-! ## Standard library: `strings`, `path`, `fmt` -/

/-- Go's `strings.Contains(s, substr)`. -/
def Contains (s substr : String) : Bool :=
  s.data.tails.any (fun t => substr.data.isPrefixOf t)

/-- Worker of `strings.Split` for a non-empty separator: `skip` counts the characters of a
matched separator still to be consumed, `cur` is the current piece, reversed. -/
def splitAux (sep : List Char) : List Char → Nat → List Char → List (List Char)
  | [], _, cur => [cur.reverse]
  | _ :: cs, skip + 1, cur => splitAux sep cs skip cur
  | c :: cs, 0, cur =>
    if sep.isPrefixOf (c :: cs) then cur.reverse :: splitAux sep cs (sep.length - 1) []
    else splitAux sep cs 0 (c :: cur)

/-- Go's `strings.Split(s, sep)`: with an empty separator the string is exploded into its
characters, otherwise it is cut at every occurrence of `sep`, left to right. -/
def Split (s sep : String) : List String :=
  if sep.data = [] then s.data.map (fun c => String.mk [c])
  else (splitAux sep.data s.data 0 []).map String.mk

/-- Go's `strings.Trim(s, cutset)`: drop all leading and trailing characters found in `cutset`. -/
def Trim (s cutset : String) : String :=
  String.mk (((s.data.dropWhile (fun c => decide (c ∈ cutset.data))).rdropWhile
    (fun c => decide (c ∈ cutset.data))))

/-- Go's `bytealg.LastIndexByteString(s, c)`: index of the last `c`, `none` for Go's `-1`. -/
def LastIndexByte (s : List Char) (c : Char) : Option Nat :=
  if c ∈ s then some (s.length - 1 - s.reverse.indexOf c) else none

/-- Go's `path.Base(path)`: the last element of the path, trailing slashes removed first;
`.` for the empty path and `/` for a path of slashes only. -/
def Base (path : String) : String :=
  if path = "" then "."
  else
    -- Strip trailing slashes.
    let p := path.data.rdropWhile (fun c => c == '/')
    -- Find the last element
    let p := match LastIndexByte p '/' with
      | some i => p.drop (i + 1)
      | none => p
    -- If empty now, it had only slashes.
    if p = [] then "/" else String.mk p

/-- Go's `fmt.Sprintf("%d", n)` for a non-negative `n`. -/
def fmtD (n : Nat) : String := toString n

/-! ## Go maps -/

abbrev GoMap (V : Type) := List (String × V)

/-- The lookup `m[key]` with the presence flag. -/
def GoMap.get? {V : Type} : GoMap V → String → Option V
  | [], _ => none
  | (k, v) :: m, key => if k = key then some v else GoMap.get? m key

/-- Overwrite the value stored under an existing key (no effect when the key is absent). -/
def GoMap.set {V : Type} : GoMap V → String → V → GoMap V
  | [], _, _ => []
  | (k, v) :: m, key, w => if k = key then (k, w) :: m else (k, v) :: GoMap.set m key w

/-- Keys of a map are pairwise distinct. -/
def GoMap.WF {V : Type} (m : GoMap V) : Prop := (m.map Prod.fst).Nodup

instance {V : Type} (m : GoMap V) : Decidable (GoMap.WF m) := by
  unfold GoMap.WF
  infer_instance

/-! ## Data model -/

/-- Modelled from the spec: the locally observed state of an entry, whose declaration is not in
`hub.go`. `Tainted` is read by `ItemStats`; the other flags are there for `IsLocal`. -/
structure ItemState where
  Installed : Bool
  Downloaded : Bool
  Tainted : Bool
  deriving DecidableEq, Repr

/-- Modelled from the spec: a catalog entry, whose declaration is not in `hub.go`. The fields are
those `hub.go` reads or writes, plus the declared sub-item references; `hub` tells whether
the back reference to the owning hub is set, `Type_` is the Go field `Type`. -/
structure Item where
  hub : Bool
  State : ItemState
  Type_ : String
  Name : String
  FileName : String
  Author : String
  RemotePath : String
  SubItems : List (String × String)
  deriving DecidableEq, Repr

/-- The type `HubItems`: item type ↦ item name ↦ `*Item`. -/
abbrev HubItems := GoMap (GoMap (Option Item))

/-- The lookup `h.Items[itemType]`: the inner map, the nil (empty) map when the type is absent. -/
def HubItems.get (items : HubItems) (itemType : String) : GoMap (Option Item) :=
  (GoMap.get? items itemType).getD []

/-- The part of `csconfig.LocalHubCfg` that `hub.go` reads. -/
structure LocalHubCfg where
  HubIndexFile : String
  InstallDataDir : String
  deriving DecidableEq, Repr

/-- Modelled from the spec: the remote configuration, opaque to `hub.go`. -/
structure RemoteHubCfg where
  source : String
  deriving DecidableEq, Repr

/-- The `Hub` structure; `localCfg` is the Go field `local`, `none` being the nil pointer. -/
structure Hub where
  Items : HubItems
  localCfg : Option LocalHubCfg
  remote : Option RemoteHubCfg
  Warnings : List String
  deriving DecidableEq, Repr

/-! ## Filesystem -/

/-- How `os.WriteFile` fails on a path: when opening (nothing is written), or while writing,
after the file has been truncated and `written` bytes have reached it. -/
inductive WriteFault where
  | onOpen (e : GoError)
  | onWrite (e : GoError) (written : Nat)

/-- The filesystem as the hub sees it: file contents, and the faults (permissions, I/O) that
reads and writes meet. -/
structure FS where
  file : String → Option Bytes
  readFault : String → Option GoError
  writeFault : String → Option WriteFault

/-- The error of reading a file that does not exist. -/
def ErrNotExist (name : String) : GoError :=
  .wrap ("open " ++ name ++ ": ") (.base "no such file or directory")

/-- Go's `os.ReadFile(name)`. -/
def ReadFile (fs : FS) (name : String) : Res Bytes :=
  match fs.readFault name with
  | some e => .err e
  | none =>
    match fs.file name with
    | some content => .ok content
    | none => .err (ErrNotExist name)

/-- The filesystem with `data` stored at `name`. -/
def FS.store (fs : FS) (name : String) (data : Bytes) : FS :=
  { fs with file := fun p => if p = name then some data else fs.file p }

/-- Go's `os.WriteFile(name, data, 0o644)`: the new filesystem and the returned error. -/
def WriteFile (fs : FS) (name : String) (data : Bytes) : FS × Option GoError :=
  match fs.writeFault name with
  | none => (fs.store name data, none)
  | some (.onOpen e) => (fs, some e)
  | some (.onWrite e written) => (fs.store name (data.take written), some e)

/-! ## What `hub.go` uses and does not define -/

/-- The declarations that `hub.go` depends on and does not contain, as parameters.
`ItemTypes` is the ordered list of item types and `IsLocal` the method `(*Item).IsLocal`.
`Unmarshal bidx items` is `json.Unmarshal(bidx, &items)` for the item schema: the catalog
after decoding, or the decoding error. `logMissingSubItems items item` lists the warnings
that `(*Item).logMissingSubItems` records for `item`, the catalog having the keys of `items`;
it changes nothing else. `fetchIndex` is `(*RemoteHubCfg).fetchIndex`, which accepts a nil
receiver, and `localSync` is `(*Hub).localSync`, which reads the filesystem. -/
structure Env where
  ItemTypes : List String
  IsLocal : Item → Bool
  Unmarshal : Bytes → HubItems → Res HubItems
  logMissingSubItems : HubItems → Item → List String
  fetchIndex : Option RemoteHubCfg → Res Bytes
  localSync : FS → Hub → Res Hub

/-! ## `parseIndex` -/

/-- Body of the inner loop of `parseIndex` for the entry `name ↦ item` of type `itemType`
(without the call of `logMissingSubItems`). -/
def completeItem (itemType name : String) (item : Item) : Item :=
  let item := { item with hub := true, Name := name }
  -- if the item has no (redundant) author, take it from the json key
  let item :=
    if item.Author = "" && Contains name "/" then
      { item with Author := (Split name "/").headD "" }
    else item
  { item with Type_ := itemType, FileName := Base item.RemotePath }

/-- The inner loop `for name, item := range h.Items[itemType]`: the completed entries and the
warnings recorded, or a panic at the first nil item. -/
def rangeItems (E : Env) (items : HubItems) (itemType : String) :
    GoMap (Option Item) → Res (GoMap (Option Item) × List String)
  | [] => .ok ([], [])
  | (_, none) :: _ => .panic
  | (name, some item) :: rest =>
    let item := completeItem itemType name item
    let ws := E.logMissingSubItems items item
    match rangeItems E items itemType rest with
    | .ok (rest, ws') => .ok ((name, some item) :: rest, ws ++ ws')
    | .err e => .err e
    | .panic => .panic

/-- The outer loop `for _, itemType := range ItemTypes`. -/
def rangeItemTypes (E : Env) : Hub → List String → Res Hub
  | h, [] => .ok h
  | h, itemType :: rest =>
    match rangeItems E h.Items itemType (h.Items.get itemType) with
    | .ok (entries, ws) =>
      rangeItemTypes E
        { h with Items := GoMap.set h.Items itemType entries, Warnings := h.Warnings ++ ws } rest
    | .err e => .err e
    | .panic => .panic

/-- The method `(*Hub).parseIndex`: the hub after the call, or the returned error (a nil
`h.local` is dereferenced when the file name is read). -/
def Hub.parseIndex (E : Env) (h : Hub) (fs : FS) : Res Hub :=
  match h.localCfg with
  | none => .panic
  | some cfg =>
    match ReadFile fs cfg.HubIndexFile with
    | .err e => .err (.wrap "unable to read index file: " e)
    | .panic => .panic
    | .ok bidx =>
      match E.Unmarshal bidx h.Items with
      | .err e => .err (.wrap "failed to unmarshal index: " e)
      | .panic => .panic
      | .ok items => rangeItemTypes E { h with Items := items } E.ItemTypes

/-! ## `ItemStats` -/

/-- The inner loop of `ItemStats`, `for _, item := range h.Items[itemType]`, on the counters
`(local, tainted)`; a nil item is dereferenced. -/
def countItems (E : Env) : GoMap (Option Item) → Nat × Nat → Res (Nat × Nat)
  | [], acc => .ok acc
  | (_, none) :: _, _ => .panic
  | (_, some item) :: rest, (loc, tainted) =>
    let loc := if E.IsLocal item then loc + 1 else loc
    let tainted := if item.State.Tainted then tainted + 1 else tainted
    countItems E rest (loc, tainted)

/-- The outer loop of `ItemStats` over the item types, on `(loaded, local, tainted)`. -/
def statsLoop (E : Env) (h : Hub) : List String → String × Nat × Nat → Res (String × Nat × Nat)
  | [], acc => .ok acc
  | itemType :: rest, (loaded, loc, tainted) =>
    if (h.Items.get itemType).length = 0 then statsLoop E h rest (loaded, loc, tainted)
    else
      let loaded := loaded ++ (fmtD (h.Items.get itemType).length ++ " " ++ itemType ++ ", ")
      match countItems E (h.Items.get itemType) (loc, tainted) with
      | .ok (loc, tainted) => statsLoop E h rest (loaded, loc, tainted)
      | .err e => .err e
      | .panic => .panic

/-- The method `(*Hub).ItemStats`: the returned strings, or a panic at a nil item. -/
def Hub.ItemStats (E : Env) (h : Hub) : Res (List String) :=
  match statsLoop E h E.ItemTypes ("", 0, 0) with
  | .ok (loaded, loc, tainted) =>
    let loaded := Trim loaded ", "
    let loaded := if loaded = "" then "0 items" else loaded
    let ret := ["Loaded: " ++ loaded]
    let ret :=
      if loc > 0 || tainted > 0 then
        ret ++ ["Unmanaged items: " ++ fmtD loc ++ " local, " ++ fmtD tainted ++ " tainted"]
      else ret
    .ok ret
  | .err e => .err e
  | .panic => .panic

/-! ## `updateIndex`, `NewHub`, `GetDataDir` -/

/-- The method `(*Hub).updateIndex`: the filesystem after the call and the returned error. -/
def Hub.updateIndex (E : Env) (h : Hub) (fs : FS) : FS × Res Unit :=
  match E.fetchIndex h.remote with
  | .err e => (fs, .err e)
  | .panic => (fs, .panic)
  | .ok body =>
    match h.localCfg with
    | none => (fs, .panic)
    | some cfg =>
      let write : FS × Res Unit :=
        match WriteFile fs cfg.HubIndexFile body with
        | (fs', some e) => (fs', .err (.wrap "failed to write hub index: " e))
        | (fs', none) => (fs', .ok ())
      match ReadFile fs cfg.HubIndexFile with
      | .ok oldContent => if body = oldContent then (fs, .ok ()) else write
      | .err _ => write
      | .panic => (fs, .panic)

/-- The constructor `NewHub(local, remote, updateIndex)`: the filesystem after the call, and
the hub or the error returned. -/
def NewHub (E : Env) (localCfg : Option LocalHubCfg) (remote : Option RemoteHubCfg)
    (updateIndex : Bool) (fs : FS) : FS × Res Hub :=
  match localCfg with
  | none => (fs, .err (.base "no hub configuration found"))
  | some _ =>
    let hub : Hub := { Items := [], localCfg := localCfg, remote := remote, Warnings := [] }
    let upd : FS × Res Unit := if updateIndex then Hub.updateIndex E hub fs else (fs, .ok ())
    match upd with
    | (fs, .err e) => (fs, .err e)
    | (fs, .panic) => (fs, .panic)
    | (fs, .ok _) =>
      match Hub.parseIndex E hub fs with
      | .err e => (fs, .err (.wrap "failed to load index: " e))
      | .panic => (fs, .panic)
      | .ok hub =>
        match E.localSync fs hub with
        | .err e => (fs, .err (.wrap "failed to sync items: " e))
        | .panic => (fs, .panic)
        | .ok hub => (fs, .ok hub)

/-- The method `(*Hub).GetDataDir`. -/
def Hub.GetDataDir (h : Hub) : Res String :=
  match h.localCfg with
  | none => .panic
  | some cfg => .ok cfg.InstallDataDir

/-! ## Notions used to state the properties -/

/-- The entries of one item type after the completion pass. -/
def completeEntries (itemType : String) (l : GoMap (Option Item)) : GoMap (Option Item) :=
  l.map (fun e => (e.1, e.2.map (completeItem itemType e.1)))

/-- The part of `s` before its first `/` (all of `s` when it has none). -/
def beforeFirstSlash (s : String) : String :=
  String.mk (s.data.takeWhile (fun c => c != '/'))

/-- The last `/`-separated segment of `s`. -/
def lastSegment (s : String) : String :=
  (Split s "/").getLastD ""

/-- The string `s` without its trailing slashes. -/
def stripTrailingSlashes (s : String) : String :=
  String.mk (s.data.rdropWhile (fun c => c == '/'))

/-- Every entry of the catalog, under whatever item type, carries its map key as `Name`. -/
def NamesMatchKeys (items : HubItems) : Prop :=
  ∀ t inner, (t, inner) ∈ items → ∀ name item, (name, some item) ∈ inner → item.Name = name

/-- Every entry of a listed item type with a non-empty `RemotePath` has the last
`/`-separated segment of `RemotePath` as `FileName`. -/
def FileNamesAreLastSegments (E : Env) (items : HubItems) : Prop :=
  ∀ t ∈ E.ItemTypes, ∀ name item, (name, some item) ∈ items.get t →
    item.RemotePath ≠ "" → item.FileName = lastSegment item.RemotePath

/-- Every entry of the catalog whose key contains a slash has a non-empty `Author`. -/
def AuthorsNonEmpty (items : HubItems) : Prop :=
  ∀ t inner, (t, inner) ∈ items → ∀ name item, (name, some item) ∈ inner →
    '/' ∈ name.data → item.Author ≠ ""

/-- The `"<count> <type>"` entries for the item types of the list `ts` that have at least one
item, in the order of `ts`. -/
def entriesOf (h : Hub) (ts : List String) : List String :=
  (ts.filter (fun t => 0 < (h.Items.get t).length)).map
    (fun t => fmtD (h.Items.get t).length ++ " " ++ t)

/-- The `"<count> <type>"` entries of the first line of `ItemStats`: one for each item type of
`ItemTypes` that has at least one item, in the order of `ItemTypes`. -/
def loadedEntries (E : Env) (h : Hub) : List String :=
  entriesOf h E.ItemTypes

/-- The entry is an item for which `IsLocal()` holds. -/
def isLocalEntry (E : Env) (e : String × Option Item) : Bool :=
  match e.2 with
  | some item => E.IsLocal item
  | none => false

/-- The entry is an item whose `State.Tainted` is set. -/
def isTaintedEntry (e : String × Option Item) : Bool :=
  match e.2 with
  | some item => item.State.Tainted
  | none => false

/-- Number of entries for which `IsLocal()` holds, over the item types of `ItemTypes`. -/
def localCount (E : Env) (h : Hub) : Nat :=
  (E.ItemTypes.map (fun t => (h.Items.get t).countP (isLocalEntry E))).sum

/-- Number of entries whose `State.Tainted` is set, over the item types of `ItemTypes`. -/
def taintedCount (E : Env) (h : Hub) : Nat :=
  (E.ItemTypes.map (fun t => (h.Items.get t).countP isTaintedEntry)).sum

/-- No entry stored under an item type of `ItemTypes` is a nil pointer: the state of the
catalog after a successful `parseIndex`. -/
def NoNilItems (E : Env) (h : Hub) : Prop :=
  ∀ t ∈ E.ItemTypes, ∀ e ∈ h.Items.get t, e.2 ≠ none

instance (E : Env) (h : Hub) : Decidable (NoNilItems E h) := by
  unfold NoNilItems
  infer_instance

/-- The item type name is a non-empty word that does not end in a comma or a space (the
characters `ItemStats` trims from the list of counts). -/
def PlainTypeName (t : String) : Bool :=
  match t.data.getLast? with
  | some c => c != ',' && c != ' '
  | none => false

/-- The string starts with a character other than the comma and the space. -/
def HeadOK (s : String) : Prop := ∃ c rest, s.data = c :: rest ∧ c ≠ ',' ∧ c ≠ ' '

/-- The string ends with a character other than the comma and the space. -/
def LastOK (s : String) : Prop := ∃ init c, s.data = init ++ [c] ∧ c ≠ ',' ∧ c ≠ ' '

/-- What follows the first line of `ItemStats`: the one line
`"Unmanaged items: <L> local, <T> tainted"` when `L > 0` or `T > 0`, and nothing otherwise,
for `L = localCount` and `T = taintedCount`. -/
def unmanagedLines (E : Env) (h : Hub) : List String :=
  if 0 < localCount E h ∨ 0 < taintedCount E h then
    ["Unmanaged items: " ++ fmtD (localCount E h) ++ " local, " ++
      fmtD (taintedCount E h) ++ " tainted"]
  else []

/-- The first string of `ItemStats` is `"Loaded: "` followed by the entries joined by `", "`. -/
def LoadedLineIsJoin (E : Env) (h : Hub) : Prop :=
  ∃ rest, Hub.ItemStats E h =
    .ok (("Loaded: " ++ String.intercalate ", " (loadedEntries E h)) :: rest)

/-- The hub value that `NewHub` builds before running the construction steps. -/
def initialHub (cfg : LocalHubCfg) (remote : Option RemoteHubCfg) : Hub :=
  { Items := [], localCfg := some cfg, remote := remote, Warnings := [] }

/-- The index update step of `NewHub`: `updateIndex` when requested, nothing otherwise. -/
def updateStep (E : Env) (cfg : LocalHubCfg) (remote : Option RemoteHubCfg)
    (updateIndex : Bool) (fs : FS) : FS × Res Unit :=
  if updateIndex then Hub.updateIndex E (initialHub cfg remote) fs else (fs, .ok ())

/-- Number of entries of the catalog that satisfy `p` and are stored under an item type of
the list `ts`, counted by going through the catalog. -/
def catalogCount (ts : List String) (p : String × Option Item → Bool) (items : HubItems) : Nat :=
  ((items.filter (fun kv => decide (kv.1 ∈ ts))).map (fun kv => kv.2.countP p)).sum

/-! ## Concrete inputs -/

/-- An item type list for the examples. -/
def sampleTypes : List String :=
  ["parsers", "postoverflows", "scenarios", "contexts", "collections"]

/-- A local configuration for the examples. -/
def sampleLocal : LocalHubCfg :=
  { HubIndexFile := "/etc/crowdsec/hub/.index.json", InstallDataDir := "/var/lib/crowdsec/data" }

/-- A filesystem without faults that holds `content` in the index file and nothing else. -/
def sampleFS (content : Bytes) : FS :=
  { file := fun p => if p = sampleLocal.HubIndexFile then some content else none
    readFault := fun _ => none
    writeFault := fun _ => none }

/-- An item as the decoder leaves it: the author and the path come from the document, the
derived fields and the local state are zero values. -/
def decodedItem (author remotePath : String) : Item :=
  { hub := false, State := ⟨false, false, false⟩, Type_ := "", Name := "", FileName := "",
    Author := author, RemotePath := remotePath, SubItems := [] }

/-- An environment whose decoder yields the catalog `doc`, whose fetch yields `fetched`, and
whose local sync changes nothing. An item is local when installed and not downloaded. -/
def sampleEnv (doc : HubItems) (fetched : Res Bytes) : Env :=
  { ItemTypes := sampleTypes
    IsLocal := fun item => item.State.Installed && !item.State.Downloaded
    Unmarshal := fun _ _ => .ok doc
    logMissingSubItems := fun _ _ => []
    fetchIndex := fun _ => fetched
    localSync := fun _ h => .ok h }

/-- A hub with the sample configuration and the given catalog. -/
def sampleHub (items : HubItems) : Hub :=
  { Items := items, localCfg := some sampleLocal, remote := none, Warnings := [] }

/-- Decoded from `{"parsers": {"crowdsecurity/sshd-logs": {"path":
"parsers/s01-parse/crowdsecurity/sshd-logs.yaml"}}, "scenarios": {"crowdsecurity/ssh-bf":
{"path": "scenarios/crowdsecurity/ssh-bf.yaml", "author": "someone"}}}`. -/
def docPlain : HubItems :=
  [("parsers", [("crowdsecurity/sshd-logs",
      some (decodedItem "" "parsers/s01-parse/crowdsecurity/sshd-logs.yaml"))]),
   ("scenarios", [("crowdsecurity/ssh-bf",
      some (decodedItem "someone" "scenarios/crowdsecurity/ssh-bf.yaml"))])]

/-- The parser of `docPlain` after the completion pass. -/
def parsedSshdLogs : Item :=
  { hub := true, State := ⟨false, false, false⟩, Type_ := "parsers",
    Name := "crowdsecurity/sshd-logs", FileName := "sshd-logs.yaml", Author := "crowdsecurity",
    RemotePath := "parsers/s01-parse/crowdsecurity/sshd-logs.yaml", SubItems := [] }

/-- The catalog `docPlain` after the completion pass. -/
def docPlainParsed : HubItems :=
  [("parsers", [("crowdsecurity/sshd-logs", some parsedSshdLogs)]),
   ("scenarios", [("crowdsecurity/ssh-bf",
      some { hub := true, State := ⟨false, false, false⟩, Type_ := "scenarios",
             Name := "crowdsecurity/ssh-bf", FileName := "ssh-bf.yaml",
             Author := "someone",
             RemotePath := "scenarios/crowdsecurity/ssh-bf.yaml", SubItems := [] })])]

/-- Decoded from `{"unknown": {"a/b": {"path": "unknown/a/b.yaml"}}}`: the only item type of
the document is not in the item type list. -/
def docUnlisted : HubItems :=
  [("unknown", [("a/b", some (decodedItem "" "unknown/a/b.yaml"))])]

/-- Decoded from `{"parsers": {"x/root": {"path": "/"}, "x/dir": {"path":
"parsers/s01-parse/x/"}}}`: two paths that end in a slash. -/
def docSlashPaths : HubItems :=
  [("parsers", [("x/root", some (decodedItem "" "/")),
                ("x/dir", some (decodedItem "" "parsers/s01-parse/x/"))])]

/-- Decoded from `{"parsers": {"/sshd-logs": {"path": "parsers/s01-parse/sshd-logs.yaml"}}}`:
the name starts with a slash and there is no author. -/
def docLeadingSlash : HubItems :=
  [("parsers", [("/sshd-logs", some (decodedItem "" "parsers/s01-parse/sshd-logs.yaml"))])]

/-- An item of the synchronised catalog with the given local state. -/
def syncedItem (itemType name : String) (installed downloaded tainted : Bool) : Item :=
  { hub := true, State := ⟨installed, downloaded, tainted⟩, Type_ := itemType, Name := name,
    FileName := "", Author := "", RemotePath := "", SubItems := [] }

/-- A hub with three parsers from the index, one of them tainted, and two scenarios that are
installed without having been downloaded. -/
def hubStats : Hub :=
  sampleHub
    [("parsers",
      [("crowdsecurity/sshd-logs", some (syncedItem "parsers" "crowdsecurity/sshd-logs" true true false)),
       ("crowdsecurity/syslog-logs", some (syncedItem "parsers" "crowdsecurity/syslog-logs" true true true)),
       ("crowdsecurity/nginx-logs", some (syncedItem "parsers" "crowdsecurity/nginx-logs" false false false))]),
     ("scenarios",
      [("my-bf.yaml", some (syncedItem "scenarios" "my-bf.yaml" true false false)),
       ("my-scan.yaml", some (syncedItem "scenarios" "my-scan.yaml" true false false))])]

/-- The error of a fetch without remote configuration. -/
def errNilRemote : GoError :=
  .base "remote hub configuration is not provided"

/-- A filesystem without faults and without any file. -/
def emptyFS : FS :=
  { file := fun _ => none, readFault := fun _ => none, writeFault := fun _ => none }

/-- The sample environment with a local sync that fails. -/
def failingSyncEnv : Env :=
  { sampleEnv docPlain (.ok []) with localSync := fun _ _ => .err (.base "permission denied") }

/-- A hub whose parsers hold a tainted item and a nil pointer. -/
def hubNilEntry : Hub :=
  sampleHub
    [("parsers",
      [("crowdsecurity/sshd-logs", some (syncedItem "parsers" "crowdsecurity/sshd-logs" true true true)),
       ("crowdsecurity/syslog-logs", none)])]

/-! ## Lemmas on maps and on the completion pass -/

theorem GoMap.get?_set {V : Type} (m : GoMap V) (k k' : String) (w : V) :
    GoMap.get? (GoMap.set m k w) k' =
      if k' = k then (if (GoMap.get? m k).isSome then some w else none) else GoMap.get? m k' := by
  induction m with
  | nil => simp [GoMap.set, GoMap.get?]
  | cons e m ih =>
    obtain ⟨a, v⟩ := e
    by_cases hak : a = k
    · subst hak
      by_cases hk : k' = a
      · subst hk; simp [GoMap.set, GoMap.get?]
      · have : ¬ a = k' := fun h => hk h.symm
        simp [GoMap.set, GoMap.get?, hk, this]
    · by_cases hk : k' = k
      · subst hk
        simp [GoMap.set, GoMap.get?, hak, ih]
      · simp [GoMap.set, GoMap.get?, hak, ih, hk]

theorem HubItems.get_set (items : HubItems) (t t' : String) (entries : GoMap (Option Item))
    (h : GoMap.get? items t = none → entries = []) :
    HubItems.get (GoMap.set items t entries) t' =
      if t' = t then entries else HubItems.get items t' := by
  unfold HubItems.get
  rw [GoMap.get?_set]
  by_cases ht : t' = t
  · subst ht
    cases hg : GoMap.get? items t' with
    | none => simp [h hg]
    | some v => simp
  · simp [ht]

theorem completeItem_idem (t n : String) (x : Item) :
    completeItem t n (completeItem t n x) = completeItem t n x := by
  unfold completeItem
  by_cases h1 : x.Author = "" <;> by_cases h2 : Contains n "/" = true <;>
    by_cases h3 : (Split n "/").headD "" = "" <;> simp [h1, h2, h3]

theorem completeEntries_idem (t : String) (l : GoMap (Option Item)) :
    completeEntries t (completeEntries t l) = completeEntries t l := by
  unfold completeEntries
  rw [List.map_map]
  apply List.map_congr_left
  rintro ⟨n, v⟩ _
  cases v <;> simp [completeItem_idem]

theorem rangeItems_ok (E : Env) (items : HubItems) (t : String) :
    ∀ (l l' : GoMap (Option Item)) (ws : List String),
      rangeItems E items t l = .ok (l', ws) →
        l' = completeEntries t l ∧ ∀ e ∈ l, e.2 ≠ none
  | [], l', ws, h => by
    simp only [rangeItems, Res.ok.injEq, Prod.mk.injEq] at h
    simp [completeEntries, ← h.1]
  | (n, none) :: rest, l', ws, h => by simp [rangeItems] at h
  | (n, some item) :: rest, l', ws, h => by
    simp only [rangeItems] at h
    cases hr : rangeItems E items t rest with
    | ok p =>
      obtain ⟨r, w⟩ := p
      rw [hr] at h
      simp only [Res.ok.injEq, Prod.mk.injEq] at h
      obtain ⟨ih1, ih2⟩ := rangeItems_ok E items t rest r w hr
      refine ⟨?_, ?_⟩
      · rw [← h.1, ih1]; simp [completeEntries]
      · intro e he
        rcases List.mem_cons.1 he with rfl | he
        · simp
        · exact ih2 e he
    | err e => rw [hr] at h; simp at h
    | panic => rw [hr] at h; simp at h

/-- When no entry is a nil pointer the inner loop completes every entry. -/
theorem rangeItems_total (E : Env) (items : HubItems) (t : String) :
    ∀ (l : GoMap (Option Item)), (∀ e ∈ l, e.2 ≠ none) →
      ∃ ws, rangeItems E items t l = .ok (completeEntries t l, ws)
  | [], _ => ⟨[], by simp [rangeItems, completeEntries]⟩
  | (n, none) :: rest, h => absurd rfl (h (n, none) (List.mem_cons_self _ _))
  | (n, some item) :: rest, h => by
    obtain ⟨ws, hws⟩ := rangeItems_total E items t rest
      (fun e he => h e (List.mem_cons_of_mem _ he))
    exact ⟨E.logMissingSubItems items (completeItem t n item) ++ ws,
      by simp [rangeItems, hws, completeEntries]⟩

/-- What the outer loop leaves in the hub: the types of the list are completed, every other
type and every other field is untouched, and no entry of a listed type was nil. -/
theorem rangeItemTypes_ok (E : Env) :
    ∀ (ts : List String) (h h' : Hub), rangeItemTypes E h ts = .ok h' →
      (∀ t, h'.Items.get t =
        if t ∈ ts then completeEntries t (h.Items.get t) else h.Items.get t) ∧
      (∀ t ∈ ts, ∀ e ∈ h.Items.get t, e.2 ≠ none) ∧
      h'.localCfg = h.localCfg ∧ h'.remote = h.remote
  | [], h, h', hr => by
    simp only [rangeItemTypes, Res.ok.injEq] at hr
    subst hr; simp
  | t0 :: rest, h, h', hr => by
    simp only [rangeItemTypes] at hr
    cases hi : rangeItems E h.Items t0 (h.Items.get t0) with
    | ok p =>
      obtain ⟨entries, ws⟩ := p
      rw [hi] at hr
      simp only at hr
      obtain ⟨he, hn⟩ := rangeItems_ok E _ _ _ _ _ hi
      obtain ⟨ih1, ih2, ih3, ih4⟩ := rangeItemTypes_ok E rest _ h' hr
      have hset : ∀ t, HubItems.get (GoMap.set h.Items t0 entries) t =
          if t = t0 then entries else h.Items.get t := by
        intro t
        apply HubItems.get_set
        intro hnone
        rw [he]
        simp [HubItems.get, hnone, completeEntries]
      simp only at ih1 ih2 ih3 ih4
      refine ⟨?_, ?_, ih3, ih4⟩
      · intro t
        rw [ih1 t, hset t]
        by_cases ht : t = t0
        · subst ht
          by_cases hm : t ∈ rest
          · simp [hm, he, completeEntries_idem]
          · simp [hm, he]
        · simp [ht]
      · intro t ht e hmem
        rcases List.mem_cons.1 ht with rfl | ht
        · exact hn e hmem
        · by_cases h0 : t = t0
          · subst h0; exact hn e hmem
          · have := ih2 t ht e
            rw [hset t] at this
            simp only [h0, if_false] at this
            exact this hmem
    | err e => rw [hi] at hr; simp at hr
    | panic => rw [hi] at hr; simp at hr

/-- The outer loop leaves the inner map of an item type outside the list as it is, present or
absent. -/
theorem rangeItemTypes_get?_unlisted (E : Env) (t : String) :
    ∀ (ts : List String) (h h' : Hub), rangeItemTypes E h ts = .ok h' → t ∉ ts →
      GoMap.get? h'.Items t = GoMap.get? h.Items t
  | [], h, h', hr, _ => by
    simp only [rangeItemTypes, Res.ok.injEq] at hr
    subst hr; rfl
  | t0 :: rest, h, h', hr, ht => by
    simp only [rangeItemTypes] at hr
    have ht0 : ¬ t = t0 := fun e => ht (e ▸ List.mem_cons_self _ _)
    have htr : t ∉ rest := fun hm => ht (List.mem_cons_of_mem _ hm)
    cases hi : rangeItems E h.Items t0 (h.Items.get t0) with
    | ok p =>
      obtain ⟨entries, ws⟩ := p
      rw [hi] at hr
      simp only at hr
      have ih := rangeItemTypes_get?_unlisted E t rest _ h' hr htr
      rw [ih]
      simp only
      rw [GoMap.get?_set, if_neg ht0]
    | err e => rw [hi] at hr; simp at hr
    | panic => rw [hi] at hr; simp at hr

/-- A successful `parseIndex` read the index file, decoded it, and ran the completion pass over
the decoded catalog. -/
theorem parseIndex_ok (E : Env) (h h' : Hub) (fs : FS) (hp : Hub.parseIndex E h fs = .ok h') :
    ∃ cfg bidx doc, h.localCfg = some cfg ∧ ReadFile fs cfg.HubIndexFile = .ok bidx ∧
      E.Unmarshal bidx h.Items = .ok doc ∧
      rangeItemTypes E { h with Items := doc } E.ItemTypes = .ok h' := by
  unfold Hub.parseIndex at hp
  cases hc : h.localCfg with
  | none => rw [hc] at hp; simp at hp
  | some cfg =>
    rw [hc] at hp
    simp only at hp
    cases hr : ReadFile fs cfg.HubIndexFile with
    | err e => rw [hr] at hp; simp at hp
    | panic => rw [hr] at hp; simp at hp
    | ok bidx =>
      rw [hr] at hp
      simp only at hp
      cases hu : E.Unmarshal bidx h.Items with
      | err e => rw [hu] at hp; simp at hp
      | panic => rw [hu] at hp; simp at hp
      | ok doc =>
        rw [hu] at hp
        exact ⟨cfg, bidx, doc, rfl, hr, hu, hp⟩

/-! ## Lemmas on the string functions -/

/-- The models of the library functions on the examples of the Go documentation. -/
theorem library_examples :
    Split "a,b,c" "," = ["a", "b", "c"] ∧
    Split "a man a plan a canal panama" "a " = ["", "man ", "plan ", "canal panama"] ∧
    Split " xyz " "" = [" ", "x", "y", "z", " "] ∧
    Split "" "/" = [""] ∧
    Trim "¡¡¡Hello, Gophers!!!" "!¡" = "Hello, Gophers" ∧
    Base "/a/b" = "b" ∧ Base "/" = "/" ∧ Base "" = "." ∧ Base "a/b/" = "b" ∧
    Contains "seafood" "foo" = true ∧ Contains "seafood" "bar" = false ∧
    Contains "seafood" "" = true ∧ Contains "" "" = true ∧
    fmtD 0 = "0" ∧ fmtD 1024 = "1024" := by
  decide

theorem tails_any_singleton (c : Char) (l : List Char) :
    l.tails.any (fun t => [c].isPrefixOf t) = true ↔ c ∈ l := by
  induction l with
  | nil => simp [List.isPrefixOf]
  | cons x xs ih =>
    rw [List.tails, List.any_cons, Bool.or_eq_true, ih]
    simp [List.isPrefixOf]

theorem Contains_slash (s : String) : Contains s "/" = true ↔ '/' ∈ s.data :=
  tails_any_singleton '/' s.data

theorem splitAux_ne_nil (sep : List Char) :
    ∀ (s : List Char) (skip : Nat) (cur : List Char), splitAux sep s skip cur ≠ []
  | [], _, _ => by simp [splitAux]
  | _ :: cs, skip + 1, cur => by
    rw [splitAux]; exact splitAux_ne_nil sep cs skip cur
  | c :: cs, 0, cur => by
    rw [splitAux]
    split
    · simp
    · exact splitAux_ne_nil sep cs 0 (c :: cur)

theorem splitAux_single_cons (c x : Char) (xs cur : List Char) :
    splitAux [c] (x :: xs) 0 cur =
      if x = c then cur.reverse :: splitAux [c] xs 0 [] else splitAux [c] xs 0 (x :: cur) := by
  rw [splitAux]
  by_cases h : x = c
  · subst h; simp [List.isPrefixOf]
  · have : ¬ c = x := fun e => h e.symm
    simp [List.isPrefixOf, h, this]

theorem splitAux_head (c : Char) :
    ∀ (s cur : List Char), (splitAux [c] s 0 cur).head? =
      some (cur.reverse ++ s.takeWhile (fun x => x != c))
  | [], cur => by simp [splitAux]
  | x :: xs, cur => by
    rw [splitAux_single_cons]
    by_cases h : x = c
    · subst h; simp
    · simp [h, splitAux_head c xs (x :: cur), List.takeWhile_cons]

theorem rtakeWhile_append (p : Char → Bool) (l₁ : List Char) :
    ∀ l₂ : List Char, (l₁ ++ l₂).rtakeWhile p =
      if (∀ x ∈ l₂, p x = true) then l₁.rtakeWhile p ++ l₂ else l₂.rtakeWhile p := by
  intro l₂
  induction l₂ using List.reverseRecOn with
  | nil => simp
  | append_singleton l a ih =>
    rw [← List.append_assoc, List.rtakeWhile_concat, List.rtakeWhile_concat, ih]
    by_cases ha : p a = true
    · rw [if_pos ha, if_pos ha]
      by_cases hl : ∀ x ∈ l, p x = true
      · have : ∀ x ∈ l ++ [a], p x = true := by
          intro x hx
          rcases List.mem_append.1 hx with h | h
          · exact hl x h
          · simp at h; subst h; exact ha
        rw [if_pos hl, if_pos this, List.append_assoc]
      · have : ¬ ∀ x ∈ l ++ [a], p x = true := fun h =>
          hl (fun x hx => h x (List.mem_append_left _ hx))
        rw [if_neg hl, if_neg this]
    · have : ¬ ∀ x ∈ l ++ [a], p x = true := fun h =>
        ha (h a (by simp))
      rw [if_neg ha, if_neg ha, if_neg this]

theorem rtakeWhile_cons_of_mem (c x : Char) (xs : List Char) (hm : c ∈ xs) :
    (x :: xs).rtakeWhile (fun y => y != c) = xs.rtakeWhile (fun y => y != c) := by
  have happ := rtakeWhile_append (fun y => y != c) [x] xs
  have : ¬ ∀ y ∈ xs, (y != c) = true := fun hall => by
    have := hall c hm
    simp at this
  rw [if_neg this] at happ
  exact happ

theorem rtakeWhile_cons_self (c : Char) (xs : List Char) (hm : c ∉ xs) :
    (c :: xs).rtakeWhile (fun y => y != c) = xs := by
  have happ := rtakeWhile_append (fun y => y != c) [c] xs
  have : ∀ y ∈ xs, (y != c) = true := by
    intro y hy
    simp only [bne_iff_ne, ne_eq]
    rintro rfl
    exact hm hy
  rw [if_pos this] at happ
  have h1 : [c].rtakeWhile (fun y => y != c) = [] := by
    simp [List.rtakeWhile]
  rw [h1] at happ
  exact happ

theorem splitAux_getLast (c : Char) :
    ∀ (s cur : List Char), (splitAux [c] s 0 cur).getLast? =
      some (if c ∈ s then s.rtakeWhile (fun x => x != c) else cur.reverse ++ s)
  | [], cur => by simp [splitAux]
  | x :: xs, cur => by
    rw [splitAux_single_cons]
    by_cases h : x = c
    · subst h
      rw [if_pos rfl, List.getLast?_cons, splitAux_getLast x xs [], if_pos (List.mem_cons_self _ _)]
      by_cases hm : x ∈ xs
      · rw [if_pos hm, rtakeWhile_cons_of_mem x x xs hm]; rfl
      · rw [if_neg hm, rtakeWhile_cons_self x xs hm]; rfl
    · rw [if_neg h, splitAux_getLast c xs (x :: cur)]
      have hcx : ¬ c = x := fun e => h e.symm
      by_cases hm : c ∈ xs
      · rw [if_pos hm, if_pos (List.mem_cons_of_mem _ hm), rtakeWhile_cons_of_mem c x xs hm]
      · have : c ∉ x :: xs := by simp [hm, hcx]
        rw [if_neg hm, if_neg this]
        simp

theorem Split_slash (s : String) :
    Split s "/" = (splitAux ['/'] s.data 0 []).map String.mk := by
  unfold Split
  rw [if_neg (by decide)]

theorem Split_head (s : String) : (Split s "/").headD "" = beforeFirstSlash s := by
  rw [Split_slash, List.headD_eq_head?_getD, List.head?_map, splitAux_head]
  simp [beforeFirstSlash]

theorem lastSegment_eq (s : String) :
    lastSegment s = String.mk (s.data.rtakeWhile (fun x => x != '/')) := by
  unfold lastSegment
  rw [Split_slash, List.getLastD_eq_getLast?, List.getLast?_map, splitAux_getLast]
  by_cases hm : '/' ∈ s.data
  · simp [hm]
  · have : s.data.rtakeWhile (fun x => x != '/') = s.data := by
      rw [List.rtakeWhile_eq_self_iff]
      intro x hx
      simp only [bne_iff_ne, ne_eq]
      rintro rfl
      exact hm hx
    simp [hm, this]

theorem take_indexOf (c : Char) :
    ∀ r : List Char, r.take (r.indexOf c) = r.takeWhile (fun x => x != c)
  | [] => by simp
  | x :: xs => by
    rw [List.indexOf_cons]
    by_cases h : x = c
    · subst h; simp
    · have hb : (x == c) = false := by simp [h]
      simp [hb, h, List.takeWhile_cons, take_indexOf c xs]

theorem drop_LastIndexByte (c : Char) (p : List Char) (hm : c ∈ p) :
    p.drop (p.length - 1 - p.reverse.indexOf c + 1) = p.rtakeWhile (fun x => x != c) := by
  have hk : p.reverse.indexOf c < p.length := by
    have := (List.indexOf_lt_length (a := c) (l := p.reverse)).2 (by simpa using hm)
    simpa using this
  have e : p.length - 1 - p.reverse.indexOf c + 1 = p.length - p.reverse.indexOf c := by omega
  rw [e]
  have h1 : p.drop (p.length - p.reverse.indexOf c) = p.rtake (p.reverse.indexOf c) := rfl
  rw [h1, List.rtake_eq_reverse_take_reverse, take_indexOf]
  rfl

/-- The last-element step of `path.Base` on a path without trailing slash. -/
theorem lastElement_eq (q : List Char) :
    (match LastIndexByte q '/' with
      | some i => q.drop (i + 1)
      | none => q) = q.rtakeWhile (fun x => x != '/') := by
  unfold LastIndexByte
  by_cases hm : '/' ∈ q
  · rw [if_pos hm]
    exact drop_LastIndexByte '/' q hm
  · rw [if_neg hm]
    symm
    rw [List.rtakeWhile_eq_self_iff]
    intro x hx
    simp only [bne_iff_ne, ne_eq]
    rintro rfl
    exact hm hx

theorem Base_eq (path : String) (h : path ≠ "") :
    Base path =
      if path.data.rdropWhile (fun c => c == '/') = [] then "/"
      else String.mk ((path.data.rdropWhile (fun c => c == '/')).rtakeWhile (fun x => x != '/')) := by
  unfold Base
  rw [if_neg h]
  simp only [lastElement_eq]
  by_cases hq : path.data.rdropWhile (fun c => c == '/') = []
  · rw [if_pos hq, hq]; simp
  · rw [if_neg hq]
    have hlast := List.rdropWhile_last_not (fun c => c == '/') path.data hq
    have hne : (path.data.rdropWhile (fun c => c == '/')).rtakeWhile (fun x => x != '/') ≠ [] := by
      intro hnil
      rw [List.rtakeWhile_eq_nil_iff] at hnil
      have := hnil hq
      simp only [bne_iff_ne, ne_eq, not_not] at this
      exact hlast (by simp [this])
    rw [if_neg hne]

/-- On a non-empty path that does not end in a slash, `path.Base` is the last segment. -/
theorem Base_eq_lastSegment (path : String) (h : path ≠ "")
    (hend : path.data.getLast? ≠ some '/') : Base path = lastSegment path := by
  have hd : path.data ≠ [] := by
    intro hnil
    apply h
    cases path
    simp_all
  have hself : path.data.rdropWhile (fun c => c == '/') = path.data := by
    rw [List.rdropWhile_eq_self_iff]
    intro hl hp
    apply hend
    rw [List.getLast?_eq_getLast _ hl]
    simpa using hp
  rw [Base_eq path h, hself, if_neg hd, lastSegment_eq]

/-- On a path with a character other than the slash, `path.Base` is the last segment of the
path without its trailing slashes. -/
theorem Base_eq_lastSegment_strip (path : String) (h : ∃ c ∈ path.data, c ≠ '/') :
    Base path = lastSegment (stripTrailingSlashes path) := by
  obtain ⟨c, hc, hne⟩ := h
  have hp : path ≠ "" := by
    rintro rfl
    simp at hc
  have hq : path.data.rdropWhile (fun c => c == '/') ≠ [] := by
    rw [Ne, List.rdropWhile_eq_nil_iff]
    intro hall
    have := hall c hc
    simp at this
    exact hne this
  rw [Base_eq path hp, if_neg hq, lastSegment_eq]
  rfl

/-! ## Lemmas on the parsed catalog -/

theorem mem_completeEntries (t name : String) (v : Option Item) (l : GoMap (Option Item))
    (hn : ∀ e ∈ l, e.2 ≠ none) (hm : (name, v) ∈ completeEntries t l) :
    ∃ x, (name, some x) ∈ l ∧ v = some (completeItem t name x) := by
  unfold completeEntries at hm
  obtain ⟨⟨n, w⟩, he, heq⟩ := List.mem_map.1 hm
  simp only [Prod.mk.injEq] at heq
  obtain ⟨rfl, rfl⟩ := heq
  cases w with
  | none => exact absurd rfl (hn _ he)
  | some x => exact ⟨x, he, rfl⟩

theorem get?_completeEntries (t name : String) :
    ∀ l : GoMap (Option Item), GoMap.get? (completeEntries t l) name =
      (GoMap.get? l name).map (Option.map (completeItem t name))
  | [] => rfl
  | (k, v) :: l => by
    have ih := get?_completeEntries t name l
    unfold completeEntries at ih ⊢
    by_cases hk : k = name
    · subst hk; simp [GoMap.get?]
    · simp [GoMap.get?, hk, ih]

theorem get?_mem {V : Type} (name : String) (v : V) :
    ∀ l : GoMap V, GoMap.get? l name = some v → (name, v) ∈ l
  | [], h => by simp [GoMap.get?] at h
  | (k, w) :: l, h => by
    by_cases hk : k = name
    · subst hk
      simp only [GoMap.get?, if_true, Option.some.injEq] at h
      subst h
      exact List.mem_cons_self _ _
    · simp only [GoMap.get?, hk, if_false] at h
      exact List.mem_cons_of_mem _ (get?_mem name v l h)

/-- After a successful `parseIndex` the catalog is the decoded one with every listed item type
completed; no entry of a listed type was nil, and the other types are as decoded. -/
theorem parseIndex_entries (E : Env) (h h' : Hub) (fs : FS)
    (hp : Hub.parseIndex E h fs = .ok h') :
    ∃ cfg bidx doc, h.localCfg = some cfg ∧ ReadFile fs cfg.HubIndexFile = .ok bidx ∧
      E.Unmarshal bidx h.Items = .ok doc ∧
      (∀ t ∈ E.ItemTypes, h'.Items.get t = completeEntries t (doc.get t) ∧
        ∀ e ∈ doc.get t, e.2 ≠ none) ∧
      (∀ t, t ∉ E.ItemTypes → h'.Items.get t = doc.get t) := by
  obtain ⟨cfg, bidx, doc, hc, hr, hu, hl⟩ := parseIndex_ok E h h' fs hp
  obtain ⟨h1, h2, _, _⟩ := rangeItemTypes_ok E _ _ _ hl
  refine ⟨cfg, bidx, doc, hc, hr, hu, ?_, ?_⟩
  · intro t ht
    refine ⟨?_, h2 t ht⟩
    rw [h1 t, if_pos ht]
  · intro t ht
    rw [h1 t, if_neg ht]

theorem completeEntries_no_nil (t : String) (l : GoMap (Option Item))
    (hn : ∀ e ∈ l, e.2 ≠ none) : ∀ e ∈ completeEntries t l, e.2 ≠ none := by
  intro e he
  obtain ⟨n, v⟩ := e
  obtain ⟨x, _, hx⟩ := mem_completeEntries t n v l hn he
  simp [hx]

/-- The outer loop returns when no entry of a listed item type is nil. -/
theorem rangeItemTypes_total (E : Env) :
    ∀ (ts : List String) (h : Hub), (∀ t ∈ ts, ∀ e ∈ h.Items.get t, e.2 ≠ none) →
      ∃ h', rangeItemTypes E h ts = .ok h'
  | [], h, _ => ⟨h, rfl⟩
  | t0 :: rest, h, hn => by
    obtain ⟨ws, hws⟩ := rangeItems_total E h.Items t0 (h.Items.get t0)
      (hn t0 (List.mem_cons_self _ _))
    rw [rangeItemTypes, hws]
    apply rangeItemTypes_total E rest
    intro t ht e he
    have hset : HubItems.get (GoMap.set h.Items t0 (completeEntries t0 (h.Items.get t0))) t =
        if t = t0 then completeEntries t0 (h.Items.get t0) else h.Items.get t := by
      apply HubItems.get_set
      intro hnone
      simp [HubItems.get, hnone, completeEntries]
    simp only at he
    rw [hset] at he
    by_cases h0 : t = t0
    · rw [if_pos h0] at he
      exact completeEntries_no_nil t0 _ (hn t0 (List.mem_cons_self _ _)) e he
    · rw [if_neg h0] at he
      exact hn t (List.mem_cons_of_mem _ ht) e he

/-- The call of `parseIndex` returns a hub when the index file is read and decoded without
error and no decoded entry of a listed item type is nil. -/
theorem parseIndex_total (E : Env) (h : Hub) (fs : FS) (cfg : LocalHubCfg) (bidx : Bytes)
    (doc : HubItems) (hc : h.localCfg = some cfg)
    (hr : ReadFile fs cfg.HubIndexFile = .ok bidx) (hu : E.Unmarshal bidx h.Items = .ok doc)
    (hn : ∀ t ∈ E.ItemTypes, ∀ e ∈ doc.get t, e.2 ≠ none) :
    ∃ h', Hub.parseIndex E h fs = .ok h' := by
  unfold Hub.parseIndex
  rw [hc]
  dsimp only
  rw [hr]
  dsimp only
  rw [hu]
  exact rangeItemTypes_total E E.ItemTypes _ hn

theorem beforeFirstSlash_ne_empty (name : String) (h0 : name.data.head? ≠ some '/')
    (hs : '/' ∈ name.data) : beforeFirstSlash name ≠ "" := by
  unfold beforeFirstSlash
  intro he
  have hd : name.data.takeWhile (fun c => c != '/') = [] := by
    have := congrArg String.data he
    simpa using this
  cases hn : name.data with
  | nil => rw [hn] at hs; simp at hs
  | cons c cs =>
    rw [hn] at hd h0
    simp only [List.head?_cons, ne_eq, Option.some.injEq] at h0
    simp [List.takeWhile_cons, h0] at hd

theorem completeItem_Name (t name : String) (x : Item) : (completeItem t name x).Name = name := by
  unfold completeItem
  dsimp only
  split <;> rfl

theorem completeItem_RemotePath (t name : String) (x : Item) :
    (completeItem t name x).RemotePath = x.RemotePath := by
  unfold completeItem
  dsimp only
  split <;> rfl

theorem completeItem_FileName (t name : String) (x : Item) :
    (completeItem t name x).FileName = Base x.RemotePath := by
  unfold completeItem
  dsimp only
  split <;> rfl

theorem completeItem_Author (t name : String) (x : Item) :
    (completeItem t name x).Author =
      if x.Author = "" ∧ '/' ∈ name.data then beforeFirstSlash name else x.Author := by
  unfold completeItem
  dsimp only
  by_cases h1 : x.Author = "" <;> by_cases h2 : '/' ∈ name.data
  · have hc := (Contains_slash name).2 h2
    rw [if_pos (by simp [h1, hc]), if_pos ⟨h1, h2⟩]
    exact Split_head name
  · have hc : Contains name "/" = false := by
      rw [← Bool.not_eq_true, Contains_slash]; exact h2
    rw [if_neg (by simp [hc]), if_neg (fun hh => h2 hh.2)]
  · rw [if_neg (by simp [h1]), if_neg (fun hh => h1 hh.1)]
  · rw [if_neg (by simp [h1]), if_neg (fun hh => h1 hh.1)]

/-! ## Lemmas on `ItemStats` -/

theorem countItems_ok (E : Env) :
    ∀ (l : GoMap (Option Item)) (a b : Nat), (∀ e ∈ l, e.2 ≠ none) →
      countItems E l (a, b) = .ok (a + l.countP (isLocalEntry E), b + l.countP isTaintedEntry)
  | [], a, b, _ => by simp [countItems]
  | (n, none) :: rest, a, b, h => absurd rfl (h (n, none) (List.mem_cons_self _ _))
  | (n, some item) :: rest, a, b, h => by
    have ih := fun a b => countItems_ok E rest a b (fun e he => h e (List.mem_cons_of_mem _ he))
    rw [countItems, ih, List.countP_cons, List.countP_cons]
    by_cases h1 : E.IsLocal item = true <;> by_cases h2 : item.State.Tainted = true <;>
      simp [isLocalEntry, isTaintedEntry, h1, h2] <;> omega

theorem statsLoop_ok (E : Env) (h : Hub) :
    ∀ (ts : List String) (s : String) (a b : Nat),
      (∀ t ∈ ts, ∀ e ∈ h.Items.get t, e.2 ≠ none) →
      statsLoop E h ts (s, a, b) =
        .ok ((entriesOf h ts).foldl (fun acc e => acc ++ (e ++ ", ")) s,
          a + (ts.map (fun t => (h.Items.get t).countP (isLocalEntry E))).sum,
          b + (ts.map (fun t => (h.Items.get t).countP isTaintedEntry)).sum)
  | [], s, a, b, _ => by simp [statsLoop, entriesOf]
  | t :: rest, s, a, b, hn => by
    have ih := fun s a b => statsLoop_ok E h rest s a b
      (fun t' ht' => hn t' (List.mem_cons_of_mem _ ht'))
    rw [statsLoop]
    by_cases h0 : (h.Items.get t).length = 0
    · rw [if_pos h0, ih]
      have hnil : h.Items.get t = [] := List.length_eq_zero.1 h0
      simp [entriesOf, hnil]
    · rw [if_neg h0, countItems_ok E _ a b (hn t (List.mem_cons_self _ _))]
      dsimp only
      rw [ih]
      have hpos : 0 < (h.Items.get t).length := Nat.pos_of_ne_zero h0
      simp [entriesOf, hpos, Nat.add_assoc]

theorem foldl_append_sep (sep : String) :
    ∀ (es : List String) (acc : String),
      es.foldl (fun acc e => acc ++ (e ++ sep)) (acc ++ sep) =
        String.intercalate.go acc sep es ++ sep
  | [], acc => by simp [String.intercalate.go]
  | e :: es, acc => by
    rw [List.foldl_cons, String.intercalate.go, ← foldl_append_sep sep es (acc ++ sep ++ e)]
    congr 1
    simp [String.append_assoc]

theorem foldl_eq_intercalate (sep e : String) (es : List String) :
    (e :: es).foldl (fun acc e => acc ++ (e ++ sep)) "" = String.intercalate sep (e :: es) ++ sep := by
  rw [List.foldl_cons, String.intercalate, ← foldl_append_sep]
  congr 1


theorem digitChar_ne (n : Nat) :
    Nat.digitChar (n % 10) ≠ ',' ∧ Nat.digitChar (n % 10) ≠ ' ' := by
  have hlt : n % 10 < 10 := Nat.mod_lt _ (by decide)
  generalize n % 10 = d at hlt
  interval_cases d <;> decide

theorem toDigitsCore_ne_nil :
    ∀ (fuel n : Nat) (ds : List Char), (fuel = 0 → ds ≠ []) → Nat.toDigitsCore 10 fuel n ds ≠ []
  | 0, _, ds, h => by simpa [Nat.toDigitsCore] using h rfl
  | fuel + 1, n, ds, _ => by
    rw [Nat.toDigitsCore]
    split
    · simp
    · exact toDigitsCore_ne_nil fuel _ _ (fun _ => by simp)

theorem toDigitsCore_all :
    ∀ (fuel n : Nat) (ds : List Char), (∀ c ∈ ds, c ≠ ',' ∧ c ≠ ' ') →
      ∀ c ∈ Nat.toDigitsCore 10 fuel n ds, c ≠ ',' ∧ c ≠ ' '
  | 0, _, ds, h => by simpa [Nat.toDigitsCore] using h
  | fuel + 1, n, ds, h => by
    have hd : ∀ c ∈ Nat.digitChar (n % 10) :: ds, c ≠ ',' ∧ c ≠ ' ' := by
      intro c hc
      rcases List.mem_cons.1 hc with rfl | hc
      · exact digitChar_ne n
      · exact h c hc
    rw [Nat.toDigitsCore]
    split
    · exact hd
    · exact toDigitsCore_all fuel _ _ hd

theorem fmtD_HeadOK (n : Nat) : HeadOK (fmtD n) := by
  have hdata : (fmtD n).data = Nat.toDigits 10 n := rfl
  have hne : Nat.toDigits 10 n ≠ [] := toDigitsCore_ne_nil _ _ _ (by simp)
  have hall : ∀ c ∈ Nat.toDigits 10 n, c ≠ ',' ∧ c ≠ ' ' :=
    toDigitsCore_all _ _ _ (by simp)
  unfold HeadOK
  rw [hdata]
  cases hl : Nat.toDigits 10 n with
  | nil => exact absurd hl hne
  | cons c rest =>
    rw [hl] at hall
    exact ⟨c, rest, rfl, hall c (List.mem_cons_self _ _)⟩

theorem HeadOK_append (a b : String) (h : HeadOK a) : HeadOK (a ++ b) := by
  obtain ⟨c, rest, hd, hc⟩ := h
  exact ⟨c, rest ++ b.data, by simp [hd], hc⟩

theorem LastOK_append (a b : String) (h : LastOK b) : LastOK (a ++ b) := by
  obtain ⟨init, c, hd, hc⟩ := h
  exact ⟨a.data ++ init, c, by simp [hd], hc⟩

theorem LastOK_of_plain (t : String) (h : PlainTypeName t = true) : LastOK t := by
  unfold PlainTypeName at h
  cases hl : t.data.getLast? with
  | none => rw [hl] at h; simp at h
  | some c =>
    rw [hl] at h
    simp only [Bool.and_eq_true, bne_iff_ne, ne_eq] at h
    have hne : t.data ≠ [] := by
      intro hnil
      rw [hnil] at hl
      simp at hl
    refine ⟨t.data.dropLast, c, ?_, h⟩
    have h1 := List.dropLast_append_getLast hne
    rw [List.getLast?_eq_getLast _ hne] at hl
    rw [← Option.some.inj hl]
    exact h1.symm

theorem intercalate_go_HeadOK (sep : String) :
    ∀ (es : List String) (acc : String), HeadOK acc → HeadOK (String.intercalate.go acc sep es)
  | [], acc, h => by simpa [String.intercalate.go] using h
  | e :: es, acc, h => by
    rw [String.intercalate.go]
    exact intercalate_go_HeadOK sep es _ (HeadOK_append _ _ (HeadOK_append _ _ h))

theorem intercalate_go_LastOK (sep : String) :
    ∀ (es : List String) (acc : String), LastOK acc → (∀ e ∈ es, LastOK e) →
      LastOK (String.intercalate.go acc sep es)
  | [], acc, h, _ => by simpa [String.intercalate.go] using h
  | e :: es, acc, _, hes => by
    rw [String.intercalate.go]
    exact intercalate_go_LastOK sep es _ (LastOK_append _ _ (hes e (List.mem_cons_self _ _)))
      (fun e' he' => hes e' (List.mem_cons_of_mem _ he'))

/-- Trimming commas and spaces from a string that neither starts nor ends with one, followed
by `", "`, gives the string back. -/
theorem Trim_append_sep (x : String) (hh : HeadOK x) (hl : LastOK x) :
    Trim (x ++ ", ") ", " = x := by
  obtain ⟨c, rest, hd, hc1, hc2⟩ := hh
  obtain ⟨init, d, hd', hd1, hd2⟩ := hl
  unfold Trim
  have hcut : (", " : String).data = [',', ' '] := rfl
  have hdata : (x ++ ", ").data = x.data ++ [',', ' '] := rfl
  rw [hdata, hcut]
  have h1 : (x.data ++ [',', ' ']).dropWhile (fun c => decide (c ∈ [',', ' '])) =
      x.data ++ [',', ' '] := by
    rw [hd]
    simp [List.dropWhile_cons, hc1, hc2]
  rw [h1]
  have h2 : x.data ++ [',', ' '] = (x.data ++ [',']) ++ [' '] := by simp
  rw [h2, List.rdropWhile_concat_pos _ _ _ (by simp), List.rdropWhile_concat_pos _ _ _ (by simp),
    hd', List.rdropWhile_concat_neg _ _ _ (by simp [hd1, hd2])]
  rw [← hd']

theorem entriesOf_HeadOK (h : Hub) (ts : List String) : ∀ e ∈ entriesOf h ts, HeadOK e := by
  intro e he
  unfold entriesOf at he
  obtain ⟨t, _, rfl⟩ := List.mem_map.1 he
  exact HeadOK_append _ _ (HeadOK_append _ _ (fmtD_HeadOK _))

theorem entriesOf_LastOK (h : Hub) (ts : List String) (hp : ∀ t ∈ ts, PlainTypeName t = true) :
    ∀ e ∈ entriesOf h ts, LastOK e := by
  intro e he
  unfold entriesOf at he
  obtain ⟨t, ht, rfl⟩ := List.mem_map.1 he
  exact LastOK_append _ _ (LastOK_of_plain t (hp t (List.mem_filter.1 ht).1))

/-- The trimmed list of counts is the entries joined by `", "`. -/
theorem Trim_loaded (h : Hub) (ts : List String) (hp : ∀ t ∈ ts, PlainTypeName t = true)
    (hne : entriesOf h ts ≠ []) :
    Trim ((entriesOf h ts).foldl (fun acc e => acc ++ (e ++ ", ")) "") ", " =
        String.intercalate ", " (entriesOf h ts) ∧
      String.intercalate ", " (entriesOf h ts) ≠ "" := by
  have hH := entriesOf_HeadOK h ts
  have hL := entriesOf_LastOK h ts hp
  cases hes : entriesOf h ts with
  | nil => exact absurd hes hne
  | cons e es =>
    rw [hes] at hH hL
    have h1 : HeadOK (String.intercalate ", " (e :: es)) :=
      intercalate_go_HeadOK _ _ _ (hH e (List.mem_cons_self _ _))
    have h2 : LastOK (String.intercalate ", " (e :: es)) :=
      intercalate_go_LastOK _ _ _ (hL e (List.mem_cons_self _ _))
        (fun e' he' => hL e' (List.mem_cons_of_mem _ he'))
    refine ⟨?_, ?_⟩
    · rw [foldl_eq_intercalate, Trim_append_sep _ h1 h2]
    · intro hemp
      obtain ⟨c, rest, hd, _⟩ := h1
      rw [hemp] at hd
      simp at hd

/-- The result of `ItemStats` on a hub without nil entries, in terms of the string of counts
built by the loop and of the two totals. -/
theorem ItemStats_eq (E : Env) (h : Hub) (hn : NoNilItems E h) :
    Hub.ItemStats E h = .ok
      (("Loaded: " ++
          (if Trim ((loadedEntries E h).foldl (fun acc e => acc ++ (e ++ ", ")) "") ", " = ""
            then "0 items"
            else Trim ((loadedEntries E h).foldl (fun acc e => acc ++ (e ++ ", ")) "") ", ")) ::
        unmanagedLines E h) := by
  unfold Hub.ItemStats
  rw [statsLoop_ok E h E.ItemTypes "" 0 0 hn]
  simp only [Nat.zero_add]
  by_cases hc : 0 < localCount E h ∨ 0 < taintedCount E h
  · have hb : (decide (localCount E h > 0) || decide (taintedCount E h > 0)) = true := by
      simpa using hc
    unfold unmanagedLines
    rw [if_pos hc]
    unfold localCount taintedCount at hb
    unfold loadedEntries localCount taintedCount
    rw [if_pos hb]
    rfl
  · have hb : ¬ (decide (localCount E h > 0) || decide (taintedCount E h > 0)) = true := by
      simpa using hc
    unfold unmanagedLines
    rw [if_neg hc]
    unfold localCount taintedCount at hb
    unfold loadedEntries
    rw [if_neg hb]

/-! ## The totals of `ItemStats` count the entries of the catalog -/

theorem parseIndex_NoNilItems (E : Env) (h h' : Hub) (fs : FS)
    (hp : Hub.parseIndex E h fs = .ok h') : NoNilItems E h' := by
  obtain ⟨cfg, bidx, doc, _, _, _, hin, _⟩ := parseIndex_entries E h h' fs hp
  intro t ht e he
  obtain ⟨heq, hn⟩ := hin t ht
  rw [heq] at he
  obtain ⟨n, v⟩ := e
  obtain ⟨x, _, hx⟩ := mem_completeEntries t n v _ hn he
  simp [hx]

theorem get?_eq_none_of_not_mem {V : Type} (k : String) :
    ∀ m : GoMap V, k ∉ m.map Prod.fst → GoMap.get? m k = none
  | [], _ => rfl
  | (a, v) :: m, h => by
    simp only [List.map_cons, List.mem_cons, not_or] at h
    have hak : ¬ a = k := fun e => h.1 e.symm
    simp [GoMap.get?, hak, get?_eq_none_of_not_mem k m h.2]

theorem sum_ite_eq (k : String) (a : Nat) (g : String → Nat) (hg : g k = 0) :
    ∀ ts : List String, ts.Nodup →
      (ts.map (fun t => if k = t then a else g t)).sum =
        (if k ∈ ts then a else 0) + (ts.map g).sum
  | [], _ => by simp
  | t0 :: r, hnd => by
    have hnd' := List.nodup_cons.1 hnd
    have ih := sum_ite_eq k a g hg r hnd'.2
    rw [List.map_cons, List.sum_cons, ih, List.map_cons, List.sum_cons]
    by_cases hk : k = t0
    · subst hk
      have : ¬ k ∈ r := hnd'.1
      simp [this, hg]
    · have hm : (k ∈ t0 :: r) ↔ k ∈ r := by simp [hk]
      by_cases hr : k ∈ r
      · simp [hk, hr]; omega
      · simp [hk, hr]

/-- With distinct item types and distinct keys, summing the per-type counts over the item
types is counting the entries of the catalog stored under these types. -/
theorem sum_counts_eq_catalogCount (p : String × Option Item → Bool) (ts : List String)
    (hts : ts.Nodup) :
    ∀ items : HubItems, GoMap.WF items →
      (ts.map (fun t => (HubItems.get items t).countP p)).sum = catalogCount ts p items
  | [], _ => by simp [HubItems.get, GoMap.get?, catalogCount]
  | (k, v) :: m, hwf => by
    unfold GoMap.WF at hwf
    rw [List.map_cons, List.nodup_cons] at hwf
    have ih := sum_counts_eq_catalogCount p ts hts m hwf.2
    have hget : ∀ t, (HubItems.get ((k, v) :: m) t).countP p =
        if k = t then v.countP p else (HubItems.get m t).countP p := by
      intro t
      by_cases hk : k = t
      · simp [HubItems.get, GoMap.get?, hk]
      · simp [HubItems.get, GoMap.get?, hk]
    have hk0 : (HubItems.get m k).countP p = 0 := by
      simp [HubItems.get, get?_eq_none_of_not_mem k m hwf.1]
    simp only [hget]
    rw [sum_ite_eq k (v.countP p) (fun t => (HubItems.get m t).countP p) hk0 ts hts, ih]
    unfold catalogCount
    by_cases hm : k ∈ ts
    · simp [List.filter_cons, hm]
    · simp [List.filter_cons, hm]

theorem localCount_eq_catalogCount (E : Env) (h : Hub) (hts : E.ItemTypes.Nodup)
    (hwf : GoMap.WF h.Items) :
    localCount E h = catalogCount E.ItemTypes (isLocalEntry E) h.Items :=
  sum_counts_eq_catalogCount (isLocalEntry E) E.ItemTypes hts h.Items hwf

theorem taintedCount_eq_catalogCount (E : Env) (h : Hub) (hts : E.ItemTypes.Nodup)
    (hwf : GoMap.WF h.Items) :
    taintedCount E h = catalogCount E.ItemTypes isTaintedEntry h.Items :=
  sum_counts_eq_catalogCount isTaintedEntry E.ItemTypes hts h.Items hwf

/-! ## The index parser -/

/-- C1 (as stated, refuted): the index `{"unknown": {"a/b": {"path": "unknown/a/b.yaml"}}}`
is parsed successfully, and its entry `a/b`, stored under an item type that is not in the
item type list, keeps the empty `Name` the decoder gave it. -/
theorem parseIndex_name_unlisted_type :
    Hub.parseIndex (sampleEnv docUnlisted (.ok [])) (sampleHub []) (sampleFS []) =
        .ok (sampleHub docUnlisted) ∧
      (sampleHub docUnlisted).Items.get "unknown" =
        [("a/b", some (decodedItem "" "unknown/a/b.yaml"))] ∧
      (decodedItem "" "unknown/a/b.yaml").Name = "" ∧
      ¬ NamesMatchKeys (sampleHub docUnlisted).Items := by
  refine ⟨by decide, by decide, rfl, ?_⟩
  intro hall
  have := hall "unknown" _ (List.mem_cons_self _ _) "a/b"
    (decodedItem "" "unknown/a/b.yaml") (List.mem_cons_self _ _)
  revert this
  decide

/-- C1 (amended): after a successful `parseIndex`, every entry stored under an item type of
`ItemTypes` is a non-nil item whose `Name` equals the map key under which it is stored; the
entries under every other item-type key are left as decoded: the inner map of such a key,
present or absent, is the one of the decoded document. -/
theorem parseIndex_name_eq_key (E : Env) (h h' : Hub) (fs : FS) (cfg : LocalHubCfg)
    (bidx : Bytes) (doc : HubItems) (hc : h.localCfg = some cfg)
    (hr : ReadFile fs cfg.HubIndexFile = .ok bidx) (hu : E.Unmarshal bidx h.Items = .ok doc)
    (hp : Hub.parseIndex E h fs = .ok h') :
    (∀ t ∈ E.ItemTypes, ∀ name v, (name, v) ∈ h'.Items.get t →
      ∃ item, v = some item ∧ item.Name = name) ∧
    (∀ t, t ∉ E.ItemTypes → GoMap.get? h'.Items t = GoMap.get? doc t) := by
  obtain ⟨cfg', bidx', doc', hc', hr', hu', hl⟩ := parseIndex_ok E h h' fs hp
  have e1 : cfg' = cfg := by rw [hc] at hc'; exact (Option.some.inj hc').symm
  subst e1
  have e2 : bidx' = bidx := by rw [hr] at hr'; exact (Res.ok.inj hr').symm
  subst e2
  have e3 : doc' = doc := by rw [hu] at hu'; exact (Res.ok.inj hu').symm
  subst e3
  obtain ⟨h1, h2, _, _⟩ := rangeItemTypes_ok E _ _ _ hl
  refine ⟨?_, ?_⟩
  · intro t ht name v hm
    rw [h1 t, if_pos ht] at hm
    obtain ⟨x, _, rfl⟩ := mem_completeEntries t name v _ (h2 t ht) hm
    exact ⟨_, rfl, completeItem_Name t name x⟩
  · intro t ht
    exact rangeItemTypes_get?_unlisted E t E.ItemTypes _ h' hl ht

/-- C1, instance: the sample index is parsed successfully, its parser, stored under
`crowdsecurity/sshd-logs`, has that key as `Name`, and the index with the single item type
`unknown` keeps the entries of that type as decoded. -/
theorem parseIndex_name_eq_key_witness :
    Hub.parseIndex (sampleEnv docPlain (.ok [])) (sampleHub []) (sampleFS []) =
        .ok (sampleHub docPlainParsed) ∧
      (∃ item, some parsedSshdLogs = some item ∧ item.Name = "crowdsecurity/sshd-logs") ∧
      GoMap.get? (sampleHub docUnlisted).Items "unknown" =
        some [("a/b", some (decodedItem "" "unknown/a/b.yaml"))] :=
  ⟨by decide,
    (parseIndex_name_eq_key (sampleEnv docPlain (.ok [])) (sampleHub [])
      (sampleHub docPlainParsed) (sampleFS []) sampleLocal [] docPlain rfl (by decide) rfl
      (by decide)).1 "parsers" (by decide) "crowdsecurity/sshd-logs" (some parsedSshdLogs)
      (by decide),
    ((parseIndex_name_eq_key (sampleEnv docUnlisted (.ok [])) (sampleHub [])
      (sampleHub docUnlisted) (sampleFS []) sampleLocal [] docUnlisted rfl (by decide) rfl
      (by decide)).2 "unknown" (by decide)).trans (by decide)⟩

/-- C2 (as stated, refuted): in the parsed index `{"parsers": {"x/root": {"path": "/"},
"x/dir": {"path": "parsers/s01-parse/x/"}}}` the entry `x/root` has `FileName` `/` and the
entry `x/dir` has `FileName` `x`, while the last `/`-separated segment of both paths is the
empty string. -/
theorem parseIndex_fileName_trailing_slash :
    ∃ h', Hub.parseIndex (sampleEnv docSlashPaths (.ok [])) (sampleHub []) (sampleFS []) = .ok h' ∧
      (h'.Items.get "parsers").map (fun e => (e.1, e.2.map (fun i => (i.RemotePath, i.FileName)))) =
        [("x/root", some ("/", "/")), ("x/dir", some ("parsers/s01-parse/x/", "x"))] ∧
      lastSegment "/" = "" ∧ lastSegment "parsers/s01-parse/x/" = "" ∧
      ¬ FileNamesAreLastSegments (sampleEnv docSlashPaths (.ok [])) h'.Items := by
  refine ⟨sampleHub [("parsers",
    [("x/root", some (completeItem "parsers" "x/root" (decodedItem "" "/"))),
     ("x/dir", some (completeItem "parsers" "x/dir" (decodedItem "" "parsers/s01-parse/x/")))])],
    by decide, by decide, by decide, by decide, ?_⟩
  intro hall
  have := hall "parsers" (by decide) "x/root"
    (completeItem "parsers" "x/root" (decodedItem "" "/")) (List.mem_cons_self _ _) (by decide)
  revert this
  decide

/-- C2 (amended): after a successful `parseIndex`, every entry stored under an item type of
`ItemTypes` has `FileName` equal to `path.Base(RemotePath)`. When `RemotePath` is non-empty
and does not end in a slash this is the last `/`-separated segment of `RemotePath`; when
`RemotePath` has a character other than the slash it is the last segment of `RemotePath`
without its trailing slashes. -/
theorem parseIndex_fileName (E : Env) (h h' : Hub) (fs : FS)
    (hp : Hub.parseIndex E h fs = .ok h') :
    ∀ t ∈ E.ItemTypes, ∀ name item, (name, some item) ∈ h'.Items.get t →
      item.FileName = Base item.RemotePath ∧
      (item.RemotePath ≠ "" → item.RemotePath.data.getLast? ≠ some '/' →
        item.FileName = lastSegment item.RemotePath) ∧
      ((∃ c ∈ item.RemotePath.data, c ≠ '/') →
        item.FileName = lastSegment (stripTrailingSlashes item.RemotePath)) := by
  obtain ⟨cfg, bidx, doc, _, _, _, hin, _⟩ := parseIndex_entries E h h' fs hp
  intro t ht name item hm
  obtain ⟨heq, hn⟩ := hin t ht
  rw [heq] at hm
  obtain ⟨x, _, hx⟩ := mem_completeEntries t name _ _ hn hm
  have hitem : item = completeItem t name x := Option.some.inj hx
  have hf : item.FileName = Base item.RemotePath := by
    rw [hitem, completeItem_FileName, completeItem_RemotePath]
  refine ⟨hf, ?_, ?_⟩
  · intro h1 h2
    rw [hf, Base_eq_lastSegment _ h1 h2]
  · intro h1
    rw [hf, Base_eq_lastSegment_strip _ h1]

/-- C2, instance: the parser of the sample index has the path
`parsers/s01-parse/crowdsecurity/sshd-logs.yaml`, which does not end in a slash, and its
`FileName` is the last segment of that path, `sshd-logs.yaml`. -/
theorem parseIndex_fileName_witness :
    Hub.parseIndex (sampleEnv docPlain (.ok [])) (sampleHub []) (sampleFS []) =
        .ok (sampleHub docPlainParsed) ∧
      parsedSshdLogs.RemotePath ≠ "" ∧ parsedSshdLogs.RemotePath.data.getLast? ≠ some '/' ∧
      parsedSshdLogs.FileName = Base parsedSshdLogs.RemotePath ∧
      parsedSshdLogs.FileName = lastSegment parsedSshdLogs.RemotePath ∧
      parsedSshdLogs.FileName = lastSegment (stripTrailingSlashes parsedSshdLogs.RemotePath) :=
  have key := parseIndex_fileName (sampleEnv docPlain (.ok [])) (sampleHub [])
    (sampleHub docPlainParsed) (sampleFS []) (by decide) "parsers" (by decide)
    "crowdsecurity/sshd-logs" parsedSshdLogs (by decide)
  ⟨by decide, by decide, by decide, key.1, key.2.1 (by decide) (by decide),
    key.2.2 ⟨'p', by decide, by decide⟩⟩

/-- C3: after a successful `parseIndex`, for every entry of the decoded index stored under an
item type of `ItemTypes` whose name contains `/` and whose decoded `Author` is empty, the
entry stored under that name afterwards has as `Author` the part of the name before its
first `/`. -/
theorem parseIndex_author_from_name (E : Env) (h h' : Hub) (fs : FS) (cfg : LocalHubCfg)
    (bidx : Bytes) (doc : HubItems) (hc : h.localCfg = some cfg)
    (hr : ReadFile fs cfg.HubIndexFile = .ok bidx) (hu : E.Unmarshal bidx h.Items = .ok doc)
    (hp : Hub.parseIndex E h fs = .ok h') :
    ∀ t ∈ E.ItemTypes, ∀ name decoded, GoMap.get? (doc.get t) name = some (some decoded) →
      '/' ∈ name.data → decoded.Author = "" →
        ∃ item, GoMap.get? (h'.Items.get t) name = some (some item) ∧
          item.Author = beforeFirstSlash name := by
  obtain ⟨cfg', bidx', doc', hc', hr', hu', hin, _⟩ := parseIndex_entries E h h' fs hp
  have e1 : cfg' = cfg := by rw [hc] at hc'; exact (Option.some.inj hc').symm
  subst e1
  have e2 : bidx' = bidx := by rw [hr] at hr'; exact (Res.ok.inj hr').symm
  subst e2
  have e3 : doc' = doc := by rw [hu] at hu'; exact (Res.ok.inj hu').symm
  subst e3
  intro t ht name decoded hg hs ha
  refine ⟨completeItem t name decoded, ?_, ?_⟩
  · rw [(hin t ht).1, get?_completeEntries, hg]; rfl
  · rw [completeItem_Author, if_pos ⟨ha, hs⟩]

/-- C3, instance: in the sample index the parser `crowdsecurity/sshd-logs` is decoded without
author, and after parsing its author is `crowdsecurity`. -/
theorem parseIndex_author_from_name_witness :
    Hub.parseIndex (sampleEnv docPlain (.ok [])) (sampleHub []) (sampleFS []) =
        .ok (sampleHub docPlainParsed) ∧
      beforeFirstSlash "crowdsecurity/sshd-logs" = "crowdsecurity" ∧
      ∃ item, GoMap.get? ((sampleHub docPlainParsed).Items.get "parsers")
          "crowdsecurity/sshd-logs" = some (some item) ∧
        item.Author = beforeFirstSlash "crowdsecurity/sshd-logs" :=
  ⟨by decide, by decide,
    parseIndex_author_from_name (sampleEnv docPlain (.ok [])) (sampleHub [])
      (sampleHub docPlainParsed) (sampleFS []) sampleLocal [] docPlain rfl (by decide) rfl
      (by decide) "parsers" (by decide) "crowdsecurity/sshd-logs"
      (decodedItem "" "parsers/s01-parse/crowdsecurity/sshd-logs.yaml") (by decide) (by decide)
      (by decide)⟩

/-- C4 (as stated, refuted): in the parsed index `{"parsers": {"/sshd-logs": {"path":
"parsers/s01-parse/sshd-logs.yaml"}}}` the key of the entry contains `/` and its `Author`,
the part of the key before the first `/`, is empty. In the parsed index `{"unknown": {"a/b":
{"path": "unknown/a/b.yaml"}}}` the entry `a/b`, under an item type that is not listed, is
left without author. -/
theorem parseIndex_author_empty_leading_slash :
    (∃ h', Hub.parseIndex (sampleEnv docLeadingSlash (.ok [])) (sampleHub []) (sampleFS []) =
        .ok h' ∧
      (h'.Items.get "parsers").map (fun e => (e.1, e.2.map (fun i => i.Author))) =
        [("/sshd-logs", some "")] ∧
      ¬ AuthorsNonEmpty h'.Items) ∧
    (Hub.parseIndex (sampleEnv docUnlisted (.ok [])) (sampleHub []) (sampleFS []) =
        .ok (sampleHub docUnlisted) ∧
      ¬ AuthorsNonEmpty (sampleHub docUnlisted).Items) := by
  refine ⟨⟨sampleHub [("parsers", [("/sshd-logs",
    some (completeItem "parsers" "/sshd-logs"
      (decodedItem "" "parsers/s01-parse/sshd-logs.yaml")))])], by decide, by decide, ?_⟩,
    by decide, ?_⟩
  · intro hall
    have := hall "parsers" _ (List.mem_cons_self _ _) "/sshd-logs" _ (List.mem_cons_self _ _)
      (by decide)
    revert this
    decide
  · intro hall
    have := hall "unknown" _ (List.mem_cons_self _ _) "a/b" _ (List.mem_cons_self _ _)
      (by decide)
    revert this
    decide

/-- C4 (amended): after a successful `parseIndex`, every entry stored under an item type of
`ItemTypes` whose map key contains `/` and does not start with `/` has a non-empty
`Author`. -/
theorem parseIndex_author_nonempty (E : Env) (h h' : Hub) (fs : FS)
    (hp : Hub.parseIndex E h fs = .ok h') :
    ∀ t ∈ E.ItemTypes, ∀ name item, (name, some item) ∈ h'.Items.get t →
      '/' ∈ name.data → name.data.head? ≠ some '/' → item.Author ≠ "" := by
  obtain ⟨cfg, bidx, doc, _, _, _, hin, _⟩ := parseIndex_entries E h h' fs hp
  intro t ht name item hm hs h0
  obtain ⟨heq, hn⟩ := hin t ht
  rw [heq] at hm
  obtain ⟨x, _, hx⟩ := mem_completeEntries t name _ _ hn hm
  have hitem : item = completeItem t name x := Option.some.inj hx
  rw [hitem, completeItem_Author]
  by_cases ha : x.Author = ""
  · rw [if_pos ⟨ha, hs⟩]
    exact beforeFirstSlash_ne_empty name h0 hs
  · rw [if_neg (fun hh => ha hh.1)]
    exact ha

/-- C4, instance: the key `crowdsecurity/sshd-logs` of the sample parser contains a slash and
does not start with one, and the author of the parsed entry is not empty. -/
theorem parseIndex_author_nonempty_witness :
    Hub.parseIndex (sampleEnv docPlain (.ok [])) (sampleHub []) (sampleFS []) =
        .ok (sampleHub docPlainParsed) ∧
      '/' ∈ "crowdsecurity/sshd-logs".data ∧
      "crowdsecurity/sshd-logs".data.head? ≠ some '/' ∧ parsedSshdLogs.Author ≠ "" :=
  ⟨by decide, by decide, by decide,
    parseIndex_author_nonempty (sampleEnv docPlain (.ok [])) (sampleHub [])
      (sampleHub docPlainParsed) (sampleFS []) (by decide) "parsers" (by decide)
      "crowdsecurity/sshd-logs" parsedSshdLogs (by decide) (by decide) (by decide)⟩

/-! ## `ItemStats` -/

/-- C5 (as stated, refuted): for the hub with an empty catalog there is no entry to join, so
the line of the claim is `Loaded: `, while `ItemStats` returns `Loaded: 0 items`. -/
theorem ItemStats_loaded_empty_catalog :
    Hub.ItemStats (sampleEnv [] (.ok [])) (sampleHub []) = .ok ["Loaded: 0 items"] ∧
      "Loaded: " ++ String.intercalate ", " (loadedEntries (sampleEnv [] (.ok [])) (sampleHub [])) =
        "Loaded: " ∧
      ¬ LoadedLineIsJoin (sampleEnv [] (.ok [])) (sampleHub []) := by
  refine ⟨by decide, by decide, ?_⟩
  rintro ⟨rest, hr⟩
  have h0 : Hub.ItemStats (sampleEnv [] (.ok [])) (sampleHub []) = .ok ["Loaded: 0 items"] := by
    decide
  rw [h0] at hr
  revert hr
  simp only [Res.ok.injEq, List.cons.injEq]
  rintro ⟨h1, _⟩
  revert h1
  decide

/-- C5 (amended): for every hub whose entries are non-nil items, the item type names being
non-empty words that do not end in a comma or a space: when some item type of `ItemTypes`
has an item, the first string of `ItemStats` is `"Loaded: "` followed by the entries
`"<count> <type>"` of exactly the item types of `ItemTypes` that have at least one item, in
the order of `ItemTypes`, joined by `", "`; when none has, it is `"Loaded: 0 items"`. -/
theorem ItemStats_loaded (E : Env) (h : Hub) (hn : NoNilItems E h)
    (hp : ∀ t ∈ E.ItemTypes, PlainTypeName t = true) :
    (loadedEntries E h ≠ [] → ∃ rest, Hub.ItemStats E h =
      .ok (("Loaded: " ++ String.intercalate ", " (loadedEntries E h)) :: rest)) ∧
    (loadedEntries E h = [] → ∃ rest, Hub.ItemStats E h = .ok ("Loaded: 0 items" :: rest)) := by
  refine ⟨?_, ?_⟩
  · intro hne
    obtain ⟨ht, hne'⟩ := Trim_loaded h E.ItemTypes hp hne
    refine ⟨unmanagedLines E h, ?_⟩
    rw [ItemStats_eq E h hn]
    unfold loadedEntries
    rw [ht, if_neg hne']
  · intro he
    refine ⟨unmanagedLines E h, ?_⟩
    rw [ItemStats_eq E h hn, he]
    rfl

/-- C5, instance: the hub with three parsers and two scenarios. -/
theorem ItemStats_loaded_witness :
    NoNilItems (sampleEnv [] (.ok [])) hubStats ∧
      (∀ t ∈ (sampleEnv [] (.ok [])).ItemTypes, PlainTypeName t = true) ∧
      loadedEntries (sampleEnv [] (.ok [])) hubStats = ["3 parsers", "2 scenarios"] ∧
      ∃ rest, Hub.ItemStats (sampleEnv [] (.ok [])) hubStats =
        .ok (("Loaded: " ++ String.intercalate ", "
          (loadedEntries (sampleEnv [] (.ok [])) hubStats)) :: rest) :=
  ⟨by decide, by decide, by decide,
    (ItemStats_loaded (sampleEnv [] (.ok [])) hubStats (by decide) (by decide)).1 (by decide)⟩

/-- C6: for every hub whose catalog has no item under any item type of `ItemTypes`,
`ItemStats` returns exactly the one-element list `["Loaded: 0 items"]`. -/
theorem ItemStats_no_items (E : Env) (h : Hub) (he : ∀ t ∈ E.ItemTypes, h.Items.get t = []) :
    Hub.ItemStats E h = .ok ["Loaded: 0 items"] := by
  have hn : NoNilItems E h := by
    intro t ht e hmem
    rw [he t ht] at hmem
    simp at hmem
  have hnil : loadedEntries E h = [] := by
    unfold loadedEntries entriesOf
    rw [List.map_eq_nil_iff, List.filter_eq_nil_iff]
    intro t ht
    simp [he t ht]
  have hl : localCount E h = 0 := by
    unfold localCount
    rw [List.sum_eq_zero]
    intro x hx
    obtain ⟨t, ht, rfl⟩ := List.mem_map.1 hx
    simp [he t ht]
  have htt : taintedCount E h = 0 := by
    unfold taintedCount
    rw [List.sum_eq_zero]
    intro x hx
    obtain ⟨t, ht, rfl⟩ := List.mem_map.1 hx
    simp [he t ht]
  rw [ItemStats_eq E h hn, hnil]
  unfold unmanagedLines
  rw [hl, htt]
  rfl

/-- C6, instance: a hub whose only entry is stored under an item type that is not listed. -/
theorem ItemStats_no_items_witness :
    (∀ t ∈ (sampleEnv [] (.ok [])).ItemTypes, (sampleHub docUnlisted).Items.get t = []) ∧
      Hub.ItemStats (sampleEnv [] (.ok [])) (sampleHub docUnlisted) = .ok ["Loaded: 0 items"] :=
  ⟨by decide, ItemStats_no_items (sampleEnv [] (.ok [])) (sampleHub docUnlisted) (by decide)⟩

/-- C7 (as stated, refuted): on the hub whose parsers hold a tainted item and a nil pointer,
`ItemStats` dereferences the nil item and panics: it returns no line at all, while `T = 1`
and the second line of the claim is `Unmanaged items: 0 local, 1 tainted`. -/
theorem ItemStats_unmanaged_nil_entry :
    Hub.ItemStats (sampleEnv [] (.ok [])) hubNilEntry = .panic ∧
      localCount (sampleEnv [] (.ok [])) hubNilEntry = 0 ∧
      taintedCount (sampleEnv [] (.ok [])) hubNilEntry = 1 ∧
      unmanagedLines (sampleEnv [] (.ok [])) hubNilEntry =
        ["Unmanaged items: 0 local, 1 tainted"] ∧
      ¬ ∃ first, Hub.ItemStats (sampleEnv [] (.ok [])) hubNilEntry =
        .ok (first :: unmanagedLines (sampleEnv [] (.ok [])) hubNilEntry) := by
  refine ⟨by decide, by decide, by decide, by decide, ?_⟩
  rintro ⟨first, hf⟩
  have h0 : Hub.ItemStats (sampleEnv [] (.ok [])) hubNilEntry = .panic := by decide
  rw [h0] at hf
  exact Res.noConfusion hf

/-- C7 (amended): for every hub whose entries under the item types of `ItemTypes` are non-nil
items, with `L` the number of entries for which `IsLocal()` holds and `T` the number of
entries whose `State.Tainted` is set, over the item types of `ItemTypes`: `ItemStats` returns
its first line followed by the one line `"Unmanaged items: <L> local, <T> tainted"` when
`L > 0` or `T > 0`, and by nothing otherwise. `L` and `T` are the sums over `ItemTypes` of the
counts per item type; when the item types and the keys of the catalog are pairwise distinct
they are the numbers of entries of the catalog, under the item types of `ItemTypes`, that are
local and that are tainted. For the catalog of three parsers (one tainted) and two local-only
scenarios the first line contains `3 parser` and the second contains `2 local` and
`1 tainted`. -/
theorem ItemStats_unmanaged :
    (∀ (E : Env) (h : Hub), NoNilItems E h →
      (∃ first, Hub.ItemStats E h = .ok (first :: unmanagedLines E h) ∧
        (unmanagedLines E h ≠ [] ↔ 0 < localCount E h ∨ 0 < taintedCount E h) ∧
        (unmanagedLines E h ≠ [] → unmanagedLines E h =
          ["Unmanaged items: " ++ fmtD (localCount E h) ++ " local, " ++
            fmtD (taintedCount E h) ++ " tainted"])) ∧
      (E.ItemTypes.Nodup → GoMap.WF h.Items →
        localCount E h = catalogCount E.ItemTypes (isLocalEntry E) h.Items ∧
        taintedCount E h = catalogCount E.ItemTypes isTaintedEntry h.Items)) ∧
    (Hub.ItemStats (sampleEnv [] (.ok [])) hubStats =
        .ok ["Loaded: 3 parsers, 2 scenarios", "Unmanaged items: 2 local, 1 tainted"] ∧
      Contains "Loaded: 3 parsers, 2 scenarios" "3 parser" = true ∧
      Contains "Unmanaged items: 2 local, 1 tainted" "2 local" = true ∧
      Contains "Unmanaged items: 2 local, 1 tainted" "1 tainted" = true) := by
  refine ⟨?_, by decide, by decide, by decide, by decide⟩
  intro E h hn
  refine ⟨⟨_, ItemStats_eq E h hn, ?_, ?_⟩, ?_⟩
  · unfold unmanagedLines
    by_cases hc : 0 < localCount E h ∨ 0 < taintedCount E h
    · simp [hc]
    · simp [hc]
  · unfold unmanagedLines
    by_cases hc : 0 < localCount E h ∨ 0 < taintedCount E h
    · simp [hc]
    · simp [hc]
  · intro hts hwf
    exact ⟨localCount_eq_catalogCount E h hts hwf, taintedCount_eq_catalogCount E h hts hwf⟩

/-- C7, instance: the hub with three parsers (one tainted) and two local-only scenarios has
non-nil entries, distinct item types and distinct keys; `L = 2` and `T = 1`, counted either
way, and its second line is `Unmanaged items: 2 local, 1 tainted`. -/
theorem ItemStats_unmanaged_witness :
    NoNilItems (sampleEnv [] (.ok [])) hubStats ∧
      (sampleEnv [] (.ok [])).ItemTypes.Nodup ∧ GoMap.WF hubStats.Items ∧
      localCount (sampleEnv [] (.ok [])) hubStats = 2 ∧
      taintedCount (sampleEnv [] (.ok [])) hubStats = 1 ∧
      unmanagedLines (sampleEnv [] (.ok [])) hubStats =
        ["Unmanaged items: 2 local, 1 tainted"] ∧
      (∃ first, Hub.ItemStats (sampleEnv [] (.ok [])) hubStats =
          .ok (first :: unmanagedLines (sampleEnv [] (.ok [])) hubStats) ∧
        (unmanagedLines (sampleEnv [] (.ok [])) hubStats ≠ [] ↔
          0 < localCount (sampleEnv [] (.ok [])) hubStats ∨
            0 < taintedCount (sampleEnv [] (.ok [])) hubStats) ∧
        (unmanagedLines (sampleEnv [] (.ok [])) hubStats ≠ [] →
          unmanagedLines (sampleEnv [] (.ok [])) hubStats =
            ["Unmanaged items: " ++ fmtD (localCount (sampleEnv [] (.ok [])) hubStats) ++
              " local, " ++ fmtD (taintedCount (sampleEnv [] (.ok [])) hubStats) ++
              " tainted"])) ∧
      (localCount (sampleEnv [] (.ok [])) hubStats =
          catalogCount (sampleEnv [] (.ok [])).ItemTypes (isLocalEntry (sampleEnv [] (.ok [])))
            hubStats.Items ∧
        taintedCount (sampleEnv [] (.ok [])) hubStats =
          catalogCount (sampleEnv [] (.ok [])).ItemTypes isTaintedEntry hubStats.Items) :=
  have key := ItemStats_unmanaged.1 (sampleEnv [] (.ok [])) hubStats (by decide)
  ⟨by decide, by decide, by decide, by decide, by decide, by decide, key.1,
    key.2 (by decide) (by decide)⟩

/-! ## `updateIndex` -/

/-- C8: for all fetched bytes and every filesystem in which the cached index file is readable
and holds exactly the fetched bytes, `updateIndex` returns success and leaves the whole
filesystem as it was. -/
theorem updateIndex_up_to_date (E : Env) (h : Hub) (fs : FS) (cfg : LocalHubCfg) (body : Bytes)
    (hc : h.localCfg = some cfg) (hf : E.fetchIndex h.remote = .ok body)
    (hread : fs.readFault cfg.HubIndexFile = none)
    (hfile : fs.file cfg.HubIndexFile = some body) :
    Hub.updateIndex E h fs = (fs, .ok ()) := by
  have hr : ReadFile fs cfg.HubIndexFile = .ok body := by
    unfold ReadFile
    rw [hread, hfile]
  unfold Hub.updateIndex
  rw [hf, hc]
  dsimp only
  rw [hr]
  dsimp only
  rw [if_pos rfl]

/-- C8, instance: the cache holds the three bytes that the fetch returns. -/
theorem updateIndex_up_to_date_witness :
    (sampleFS [123, 125, 10]).file sampleLocal.HubIndexFile = some [123, 125, 10] ∧
      Hub.updateIndex (sampleEnv [] (.ok [123, 125, 10])) (sampleHub []) (sampleFS [123, 125, 10]) =
        (sampleFS [123, 125, 10], .ok ()) :=
  ⟨by decide, updateIndex_up_to_date (sampleEnv [] (.ok [123, 125, 10])) (sampleHub [])
    (sampleFS [123, 125, 10]) sampleLocal [123, 125, 10] rfl rfl rfl (by decide)⟩

/-- C9: for all fetched bytes and every filesystem in which reading the cached index file does
not yield exactly the fetched bytes (the file is absent, or differs, or cannot be read), if
the fetch succeeds and writing the file succeeds, then `updateIndex` returns success and
afterwards the cached index file holds exactly the fetched bytes. -/
theorem updateIndex_writes (E : Env) (h : Hub) (fs : FS) (cfg : LocalHubCfg) (body : Bytes)
    (hc : h.localCfg = some cfg) (hf : E.fetchIndex h.remote = .ok body)
    (hdiff : ReadFile fs cfg.HubIndexFile ≠ .ok body)
    (hw : (WriteFile fs cfg.HubIndexFile body).2 = none) :
    (Hub.updateIndex E h fs).2 = .ok () ∧
      (Hub.updateIndex E h fs).1.file cfg.HubIndexFile = some body := by
  have hwf : fs.writeFault cfg.HubIndexFile = none := by
    unfold WriteFile at hw
    cases hx : fs.writeFault cfg.HubIndexFile with
    | none => rfl
    | some f =>
      rw [hx] at hw
      cases f <;> simp at hw
  have hwr : WriteFile fs cfg.HubIndexFile body = (fs.store cfg.HubIndexFile body, none) := by
    unfold WriteFile
    rw [hwf]
  have hst : (fs.store cfg.HubIndexFile body).file cfg.HubIndexFile = some body := by
    simp [FS.store]
  unfold Hub.updateIndex
  rw [hf, hc]
  dsimp only
  rw [hwr]
  dsimp only
  cases hr : ReadFile fs cfg.HubIndexFile with
  | ok old =>
    have hne : ¬ body = old := by
      intro e
      apply hdiff
      rw [hr, e]
    dsimp only
    rw [if_neg hne]
    exact ⟨rfl, hst⟩
  | err e => exact ⟨rfl, hst⟩
  | panic =>
    exfalso
    unfold ReadFile at hr
    cases h1 : fs.readFault cfg.HubIndexFile with
    | some e => rw [h1] at hr; simp at hr
    | none =>
      rw [h1] at hr
      cases h2 : fs.file cfg.HubIndexFile with
      | some c => rw [h2] at hr; simp at hr
      | none => rw [h2] at hr; simp at hr

/-- C9, instance: a cache with other bytes, and no cache at all; in both cases the index file
holds the fetched bytes afterwards. -/
theorem updateIndex_writes_witness :
    ((Hub.updateIndex (sampleEnv [] (.ok [123, 125, 10])) (sampleHub []) (sampleFS [91, 93])).2 =
        .ok () ∧
      (Hub.updateIndex (sampleEnv [] (.ok [123, 125, 10])) (sampleHub [])
        (sampleFS [91, 93])).1.file sampleLocal.HubIndexFile = some [123, 125, 10]) ∧
    ((Hub.updateIndex (sampleEnv [] (.ok [123, 125, 10])) (sampleHub []) emptyFS).2 = .ok () ∧
      (Hub.updateIndex (sampleEnv [] (.ok [123, 125, 10])) (sampleHub [])
        emptyFS).1.file sampleLocal.HubIndexFile = some [123, 125, 10]) :=
  ⟨updateIndex_writes (sampleEnv [] (.ok [123, 125, 10])) (sampleHub []) (sampleFS [91, 93])
      sampleLocal [123, 125, 10] rfl rfl (by decide) rfl,
    updateIndex_writes (sampleEnv [] (.ok [123, 125, 10])) (sampleHub []) emptyFS
      sampleLocal [123, 125, 10] rfl rfl (by decide) rfl⟩

/-! ## `NewHub` -/

/-- C10 (as stated, refuted): `NewHub` is called with a local configuration, without remote
configuration and with `updateIndex` set; the index update fails with the error of the fetch,
and `NewHub` returns that very error, not an error that wraps it behind a stage prefix. -/
theorem NewHub_update_error_not_wrapped :
    (Hub.updateIndex (sampleEnv [] (.err errNilRemote)) (initialHub sampleLocal none)
        emptyFS).2 = .err errNilRemote ∧
      (NewHub (sampleEnv [] (.err errNilRemote)) (some sampleLocal) none true emptyFS).2 =
        .err errNilRemote ∧
      ¬ ∃ pre, (NewHub (sampleEnv [] (.err errNilRemote)) (some sampleLocal) none true
        emptyFS).2 = .err (.wrap pre errNilRemote) := by
  refine ⟨by decide, by decide, ?_⟩
  rintro ⟨pre, hpre⟩
  have h0 : (NewHub (sampleEnv [] (.err errNilRemote)) (some sampleLocal) none true
      emptyFS).2 = .err errNilRemote := by decide
  rw [h0] at hpre
  have := Res.err.inj hpre
  unfold errNilRemote at this
  exact GoError.noConfusion this

/-- C10 (amended): for every call of `NewHub` with a non-nil local configuration: if the
index update is requested and fails, `NewHub` returns no hub and the error of the update
unchanged; if the index parse fails, `NewHub` returns no hub and the error of the parse
wrapped with the prefix `failed to load index: `; if the local sync fails, `NewHub` returns
no hub and the error of the sync wrapped with the prefix `failed to sync items: `. -/
theorem NewHub_errors (E : Env) (cfg : LocalHubCfg) (remote : Option RemoteHubCfg)
    (updateIndex : Bool) (fs : FS) :
    (∀ fs₁ e, updateStep E cfg remote updateIndex fs = (fs₁, .err e) →
      NewHub E (some cfg) remote updateIndex fs = (fs₁, .err e)) ∧
    (∀ fs₁ e, updateStep E cfg remote updateIndex fs = (fs₁, .ok ()) →
      Hub.parseIndex E (initialHub cfg remote) fs₁ = .err e →
      NewHub E (some cfg) remote updateIndex fs = (fs₁, .err (.wrap "failed to load index: " e))) ∧
    (∀ fs₁ hub e, updateStep E cfg remote updateIndex fs = (fs₁, .ok ()) →
      Hub.parseIndex E (initialHub cfg remote) fs₁ = .ok hub →
      E.localSync fs₁ hub = .err e →
      NewHub E (some cfg) remote updateIndex fs = (fs₁, .err (.wrap "failed to sync items: " e))) := by
  refine ⟨?_, ?_, ?_⟩
  · intro fs₁ e hu
    unfold updateStep initialHub at hu
    unfold NewHub
    dsimp only
    rw [hu]
  · intro fs₁ e hu hp
    unfold updateStep initialHub at hu
    unfold initialHub at hp
    unfold NewHub
    dsimp only
    rw [hu]
    dsimp only
    rw [hp]
  · intro fs₁ hub e hu hp hs
    unfold updateStep initialHub at hu
    unfold initialHub at hp
    unfold NewHub
    dsimp only
    rw [hu]
    dsimp only
    rw [hp]
    dsimp only
    rw [hs]

/-- C10, instance: a failing fetch gives its own error; a missing index file gives the read
error of the parse behind `failed to load index: `; a failing sync gives its error behind
`failed to sync items: `. -/
theorem NewHub_errors_witness :
    (NewHub (sampleEnv [] (.err errNilRemote)) (some sampleLocal) none true emptyFS).2 =
        .err errNilRemote ∧
      (NewHub (sampleEnv [] (.ok [])) (some sampleLocal) none false emptyFS).2 =
        .err (.wrap "failed to load index: "
          (.wrap "unable to read index file: " (ErrNotExist sampleLocal.HubIndexFile))) ∧
      (NewHub failingSyncEnv (some sampleLocal) none false (sampleFS [])).2 =
        .err (.wrap "failed to sync items: " (.base "permission denied")) :=
  have key1 := (NewHub_errors (sampleEnv [] (.err errNilRemote)) sampleLocal none true emptyFS).1
    emptyFS errNilRemote rfl
  have key2 := (NewHub_errors (sampleEnv [] (.ok [])) sampleLocal none false emptyFS).2.1
    emptyFS (.wrap "unable to read index file: " (ErrNotExist sampleLocal.HubIndexFile))
    rfl (by decide)
  have key3 := (NewHub_errors failingSyncEnv sampleLocal none false (sampleFS [])).2.2
    (sampleFS []) (sampleHub docPlainParsed) (.base "permission denied") rfl (by decide) rfl
  ⟨by rw [key1], by rw [key2], by rw [key3]⟩


end Cwhub
